import Mathlib

/-!
Verification development for the Pattern Highlighter content-script engine.

The embedding below translates the classification core of the extension:

* a small backtracking regular-expression engine with JavaScript semantics
  (ordered alternation, greedy repetition, case-insensitive canonicalisation),
  used to embed the detection regexes of `scripts/constants.js`;
* a DOM model `ENode` with the operations the content script performs on it
  (`addPhidForEveryElement`, `getElementByPhid`-style lookup, removal,
  `classList.add`, `innerText`);
* the pattern registry (`patternConfig`), its validity check
  (`validatePatternConfig`), the per-node matcher (`findPatterInNode`), the
  recursive tree matcher (`findPatternDeep`), the result aggregation
  (`getPatternsResults`, `elementIsVisible`), and a state-machine model of the
  `patternHighlighting` run scheduler with its `lock` re-entrancy guard and
  `MutationObserver` connect/disconnect discipline.
-/

/- ========================================================================
   Part 1: a regular-expression engine with JavaScript matching semantics.
   ======================================================================== -/

/-- Regular expression abstract syntax.  `rep a lo hi` is the quantifier
with at least `lo` and (when `hi = some n`) at most `n` greedy repetitions;
`hi = none` means unbounded.  All quantifiers appearing in the embedded
regexes are greedy, as in the source. -/
inductive Rx where
  | eps
  | cls (p : Char → Bool)
  | seq (a b : Rx)
  | alt (a b : Rx)
  | rep (a : Rx) (lo : Nat) (hi : Option Nat)

/-- Case canonicalisation used by the `i` flag: ASCII upper-case letters and
the German upper-case umlauts occurring in the embedded regexes fold to their
lower-case forms; all other characters are left unchanged (this matches the
JavaScript canonicalisation on every character occurring in the regexes and
test inputs of this development). -/
def foldChar (c : Char) : Char :=
  if c.toNat ≥ 65 && c.toNat ≤ 90 then Char.ofNat (c.toNat + 32)
  else if c = 'Ä' then 'ä' else if c = 'Ö' then 'ö' else if c = 'Ü' then 'ü' else c

/-- The JavaScript `\s` character class (whitespace, including NBSP, BOM and
the Unicode space separators). -/
def wsChar (c : Char) : Bool :=
  c == ' ' || c == '\t' || c == '\n' || c == '\r' || c.toNat == 11 || c.toNat == 12 ||
  c.toNat == 0xa0 || c.toNat == 0x1680 || (0x2000 ≤ c.toNat && c.toNat ≤ 0x200a) ||
  c.toNat == 0x2028 || c.toNat == 0x2029 || c.toNat == 0x202f || c.toNat == 0x205f ||
  c.toNat == 0x3000 || c.toNat == 0xfeff

/-- The JavaScript `\d` character class (ASCII digits only). -/
def digitChar (c : Char) : Bool := c.isDigit

/-- The character class `[a-zA-Z]` under the `i` flag. -/
def alphaChar (c : Char) : Bool :=
  97 ≤ (foldChar c).toNat && (foldChar c).toNat ≤ 122

/-- The `.` metacharacter: any character except line terminators. -/
def dotChar (c : Char) : Bool :=
  !(c == '\n' || c == '\r' || c.toNat == 0x2028 || c.toNat == 0x2029)

/-- Backtracking matcher in continuation-passing style.  `mrun fuel r s k`
attempts to match `r` at the start of `s` and passes the remaining suffix to
`k`; the first continuation success (in JavaScript preference order: left
alternative first, greedy quantifiers longest-first) is returned.  The fuel
only bounds recursion depth; `mfirst` supplies fuel that is amply sufficient
for the bounded-size regexes and inputs in this development. -/
def mrun : Nat → Rx → List Char → (List Char → Option (List Char)) → Option (List Char)
  | 0, _, _, _ => none
  | _+1, .eps, s, k => k s
  | _+1, .cls p, s, k =>
    match s with
    | [] => none
    | c :: rest => if p c then k rest else none
  | fuel+1, .seq a b, s, k => mrun fuel a s (fun s1 => mrun fuel b s1 k)
  | fuel+1, .alt a b, s, k =>
    match mrun fuel a s k with
    | some r => some r
    | none => mrun fuel b s k
  | fuel+1, .rep a lo hi, s, k =>
    match hi with
    | some 0 => k s
    | _ =>
      let hi' := hi.map (· - 1)
      if lo = 0 then
        match mrun fuel a s (fun s1 => mrun fuel (.rep a 0 hi') s1 k) with
        | some r => some r
        | none => k s
      else mrun fuel a s (fun s1 => mrun fuel (.rep a (lo-1) hi') s1 k)

/-- Structural size of a regex, used to compute a sufficient fuel. -/
def rxSize : Rx → Nat
  | .eps => 1
  | .cls _ => 1
  | .seq a b => rxSize a + rxSize b + 1
  | .alt a b => rxSize a + rxSize b + 1
  | .rep a _ _ => rxSize a + 2

/-- The preferred (JavaScript backtracking order) match of `r` at the start of
`s`: `some rem` is the suffix remaining after the matched prefix. -/
def mfirst (r : Rx) (s : List Char) : Option (List Char) :=
  mrun ((s.length + 1) * (rxSize r + 2) + 2) r s some

/-- A literal character under the `i` flag. -/
def rxCh (c : Char) : Rx := .cls (fun x => foldChar x == foldChar c)

/-- A literal string under the `i` flag. -/
def rxStr (s : String) : Rx := (s.data.map rxCh).foldr .seq .eps

/-- Sequencing of a list of regexes. -/
def rxCat (l : List Rx) : Rx := l.foldr .seq .eps

/-- Ordered alternation of a list of regexes (first alternative preferred). -/
def rxAlts : List Rx → Rx
  | [] => .cls (fun _ => false)
  | [r] => r
  | r :: rs => .alt r (rxAlts rs)

/-- The `?` quantifier (greedy, zero or one). -/
def rxOpt (r : Rx) : Rx := .rep r 0 (some 1)

/-- The pattern `\s` repeated zero or more times. -/
def ws0 : Rx := .rep (.cls wsChar) 0 none

/-- The pattern `\s` repeated one or more times. -/
def ws1 : Rx := .rep (.cls wsChar) 1 none

/-- The pattern `\d` repeated once or twice. -/
def d12 : Rx := .rep (.cls digitChar) 1 (some 2)

/-- The pattern `\d` repeated one or more times. -/
def dplus : Rx := .rep (.cls digitChar) 1 none

/-- Scanner for the `g` flag: collect the successive matches of `r` in `s`,
resuming after each match (advancing one character past an empty match, and
past every position where no match starts). -/
def scanMatches (r : Rx) : Nat → List Char → List (List Char)
  | 0, _ => []
  | _+1, [] =>
    match mfirst r [] with
    | some _ => [[]]
    | none => []
  | fuel+1, s@(_ :: rest) =>
    match mfirst r s with
    | none => scanMatches r fuel rest
    | some rem =>
      let m := s.take (s.length - rem.length)
      if m.isEmpty then m :: scanMatches r fuel rest
      else m :: scanMatches r fuel rem

/-- Global replacement by the empty string (`String.replace(regBad, "")`):
delete every scanner match of `r` from `s`. -/
def scanStrip (r : Rx) : Nat → List Char → List Char
  | 0, s => s
  | _+1, [] => []
  | fuel+1, s@(c :: rest) =>
    match mfirst r s with
    | none => c :: scanStrip r fuel rest
    | some rem =>
      let m := s.take (s.length - rem.length)
      if m.isEmpty then c :: scanStrip r fuel rest
      else scanStrip r fuel rem

/-- `String.match` with the `g` flag: `none` when there is no match at all,
otherwise the non-empty list of matched substrings. -/
def jsMatchG (r : Rx) (s : List Char) : Option (List (List Char)) :=
  let ms := scanMatches r (s.length + 1) s
  if ms.isEmpty then none else some ms

/-- `String.replace(r, "")` with the `g` flag. -/
def jsStripG (r : Rx) (s : List Char) : List Char := scanStrip r (s.length + 1) s

/-- `RegExp.test`: does `r` match anywhere in the remaining input? -/
def jsTestAux (r : Rx) : List Char → Bool
  | [] => (mfirst r []).isSome
  | s@(_ :: rest) => (mfirst r s).isSome || jsTestAux r rest

/-- `RegExp.test` on a string. -/
def jsTest (r : Rx) (s : String) : Bool := jsTestAux r s.data

/-- `parseInt` on a non-empty string of ASCII digits. -/
def listToNat (l : List Char) : Nat := l.foldl (fun a c => a * 10 + (c.toNat - 48)) 0

/- ========================================================================
   Part 2: the DOM model.
   ======================================================================== -/

/-- Style and layout information consulted by `elementIsVisible`:
the computed `visibility`, `display` and `opacity` values, the two offset
dimensions and the number of client rects. -/
structure VisProps where
  visibility : String := ""
  display : String := ""
  opacity : String := ""
  offsetWidth : Nat := 0
  offsetHeight : Nat := 0
  clientRectsLen : Nat := 0

/-- An element node of the live tree or of a snapshot copy: the pattern
highlighter ID stored in `data-phid` (absent until assigned), the element's
own text, its class list, its style/layout information, and its ordered
children.  `innerText` is modelled as the element's own text followed by the
concatenated text of its descendants. -/
inductive ENode where
  | mk (phid : Option Nat) (text : String) (classes : List String)
       (vis : VisProps) (children : List ENode)

def ENode.phid : ENode → Option Nat
  | .mk p _ _ _ _ => p

def ENode.text : ENode → String
  | .mk _ tx _ _ _ => tx

def ENode.classes : ENode → List String
  | .mk _ _ cl _ _ => cl

def ENode.vis : ENode → VisProps
  | .mk _ _ _ v _ => v

def ENode.children : ENode → List ENode
  | .mk _ _ _ _ cs => cs

def ENode.withChildren : ENode → List ENode → ENode
  | .mk p tx cl v _, cs => .mk p tx cl v cs

mutual
/-- The rendered text of an element: its own text followed by the text of its
children in order (model of `Node.innerText` on the snapshot copies). -/
def innerText : ENode → String
  | .mk _ tx _ _ cs => tx ++ innerTextL cs
def innerTextL : List ENode → String
  | [] => ""
  | c :: cs => innerText c ++ innerTextL cs
end

/-- The ID list contributed by a node's own `data-phid` attribute. -/
def optPhidList : Option Nat → List Nat
  | some id => [id]
  | none => []

mutual
/-- All assigned pattern highlighter IDs in a subtree, in document order. -/
def phids : ENode → List Nat
  | .mk p _ _ _ cs => optPhidList p ++ phidsL cs
def phidsL : List ENode → List Nat
  | [] => []
  | c :: cs => phids c ++ phidsL cs
end

mutual
/-- First node (the node itself or a descendant, in document order) carrying
the given pattern highlighter ID — the `document.querySelector` lookup of
`getElementByPhid(document, id)`. -/
def findPhid (id : Nat) : ENode → Option ENode
  | .mk p tx cl v cs =>
    if p == some id then some (.mk p tx cl v cs) else findPhidL id cs
def findPhidL (id : Nat) : List ENode → Option ENode
  | [] => none
  | c :: cs =>
    match findPhid id c with
    | some r => some r
    | none => findPhidL id cs
end

/-- `getElementByPhid(dom, id)` on an element `dom`: `querySelector` searches
the descendants of `dom` only, in document order. -/
def getElementByPhid (dom : ENode) (id : Nat) : Option ENode :=
  findPhidL id dom.children

mutual
/-- Remove the first descendant (in document order) carrying the given ID —
the effect of `nodeOld.remove()` on the snapshot that contains it.  The
boolean reports whether a node was removed. -/
def removePhid (id : Nat) : ENode → ENode × Bool
  | .mk p tx cl v cs =>
    let r := removePhidL id cs
    (.mk p tx cl v r.1, r.2)
def removePhidL (id : Nat) : List ENode → List ENode × Bool
  | [] => ([], false)
  | c :: cs =>
    if c.phid == some id then (cs, true)
    else
      let rc := removePhid id c
      if rc.2 then (rc.1 :: cs, true)
      else
        let rcs := removePhidL id cs
        (c :: rcs.1, rcs.2)
end

/-- `classList.add`: append each class that is not already present. -/
def addClasses (cur : List String) (newCls : List String) : List String :=
  newCls.foldl (fun acc c => if acc.contains c then acc else acc ++ [c]) cur

mutual
/-- Add the given classes to the first node (itself or a descendant, in
document order) carrying the given ID; the boolean reports whether the node
was found — the tagging step `getElementByPhid(document, phid)` followed by
`elem.classList.add(...)`. -/
def tagPhid (id : Nat) (newCls : List String) : ENode → ENode × Bool
  | .mk p tx cl v cs =>
    if p == some id then (.mk p tx (addClasses cl newCls) v cs, true)
    else
      let r := tagPhidL id newCls cs
      (.mk p tx cl v r.1, r.2)
def tagPhidL (id : Nat) (newCls : List String) : List ENode → List ENode × Bool
  | [] => ([], false)
  | c :: cs =>
    let rc := tagPhid id newCls c
    if rc.2 then (rc.1 :: cs, true)
    else
      let rcs := tagPhidL id newCls cs
      (c :: rcs.1, rcs.2)
end

mutual
/-- All nodes of a tree in document (pre-)order, the node itself included. -/
def nodesOf : ENode → List ENode
  | .mk p tx cl v cs => .mk p tx cl v cs :: nodesOfL cs
def nodesOfL : List ENode → List ENode
  | [] => []
  | c :: cs => nodesOf c ++ nodesOfL cs
end

mutual
/-- Number of element nodes in a subtree (used to compute recursion fuel). -/
def esize : ENode → Nat
  | .mk _ _ _ _ cs => 1 + esizeL cs
def esizeL : List ENode → Nat
  | [] => 0
  | c :: cs => esize c + esizeL cs
end

/- ========================================================================
   Part 3: identity assignment (`addPhidForEveryElement`).
   ======================================================================== -/

mutual
/-- Stamp a node and its descendants in document order: a node without an ID
receives the current counter value and the counter is incremented; a node
that already has an ID is left unchanged (`if (!node.dataset.phid)`). -/
def stampNode : ENode → Nat → ENode × Nat
  | .mk p tx cl v cs, c =>
    match p with
    | some id =>
      let r := stampList cs c
      (.mk (some id) tx cl v r.1, r.2)
    | none =>
      let r := stampList cs (c + 1)
      (.mk (some c) tx cl v r.1, r.2)
def stampList : List ENode → Nat → List ENode × Nat
  | [], c => ([], c)
  | n :: ns, c =>
    let rn := stampNode n c
    let rns := stampList ns rn.2
    (rn.1 :: rns.1, rns.2)
end

/-- `addPhidForEveryElement(dom)`: iterate over `dom.querySelectorAll("*")`
(all descendants of `dom` in document order, `dom` itself excluded) and stamp
each element that has no pattern highlighter ID yet with the next value of the
monotonically increasing counter.  The counter is threaded explicitly; in the
source it is a process-wide variable that is never reset. -/
def addPhidForEveryElement (dom : ENode) (counter : Nat) : ENode × Nat :=
  let r := stampList dom.children counter
  (dom.withChildren r.1, r.2)

/- ========================================================================
   Part 4: the pattern registry.
   ======================================================================== -/

/-- A detection function entry of the registry.  `arity` is the declared
parameter count of the JavaScript function (`func.length`, checked by
`validatePatternConfig`); `fn` is the predicate over the node's current and
previous state.  A JavaScript exception is modelled by the `Except.error`
result. -/
structure DetectionFunction where
  arity : Nat
  fn : ENode → Option ENode → Except String Bool

/-- A pattern definition of `patternConfig.patterns`. -/
structure Pattern where
  name : String
  className : String
  detectionFunctions : List DetectionFunction
  infoUrl : String
  info : String

/-- The pattern configuration object. -/
structure PatternConfig where
  patterns : List Pattern

/-- Modelled from the spec: the host translation lookup `brw.i18n.getMessage`
is external to the repository (the locale string tables are not part of the
analysed sources); the registry only needs the returned display strings to be
fixed and pairwise distinct per key, so the lookup is modelled as the
identity on the message key. -/
def getMessage (key : String) : String := key

/-- Run the detection functions of one pattern in order against
`(node, nodeOld)`: the first function returning `true` settles the match; an
exception propagates (there is no handler in the source). -/
def runDetectionFunctions (node : ENode) (nodeOld : Option ENode) :
    List DetectionFunction → Except String Bool
  | [] => .ok false
  | f :: fs =>
    match f.fn node nodeOld with
    | .error e => .error e
    | .ok true => .ok true
    | .ok false => runDetectionFunctions node nodeOld fs

/-- Iteration of `findPatterInNode` over the remaining patterns. -/
def findPatterInNodeGo (node : ENode) (nodeOld : Option ENode) :
    List Pattern → Except String (Option String)
  | [] => .ok none
  | p :: ps =>
    match runDetectionFunctions node nodeOld p.detectionFunctions with
    | .error e => .error e
    | .ok true => .ok (some p.className)
    | .ok false => findPatterInNodeGo node nodeOld ps

/-- `findPatterInNode(node, nodeOld)`: iterate over all patterns of the
configuration and, within each pattern, over its detection functions; return
the class name of the first pattern with a detection function returning
`true`, and `null` (here `none`) when no pattern is detected. -/
def findPatterInNode (cfg : PatternConfig) (node : ENode) (nodeOld : Option ENode) :
    Except String (Option String) :=
  findPatterInNodeGo node nodeOld cfg.patterns

/- ========================================================================
   Part 5: the concrete detection functions of `scripts/constants.js`.
   ======================================================================== -/

/-- The group of one or two digits followed by optional spaces, a colon and
optional spaces, from the countdown regexes. -/
def cdColon : Rx := rxCat [d12, ws0, rxCh ':', ws0]

/-- The German countdown time words: `tage?`, `stunden?`, `minuten?`,
`sekunden?`, or one to three letters with an optional dot. -/
def cdWordDe : Rx := rxAlts [
  rxCat [rxStr "tag", rxOpt (rxCh 'e')],
  rxCat [rxStr "stunde", rxOpt (rxCh 'n')],
  rxCat [rxStr "minute", rxOpt (rxCh 'n')],
  rxCat [rxStr "sekunde", rxOpt (rxCh 'n')],
  rxCat [.rep (.cls alphaChar) 1 (some 3), rxOpt (rxCh '.')]]

/-- One worded German countdown unit: one or two digits, spaces, a time word,
an optional `und`, trailing spaces. -/
def cdUnitDe : Rx := rxCat [d12, ws0, cdWordDe, rxOpt (rxCat [ws0, rxStr "und"]), ws0]

/-- The countdown regex `reg` of the German countdown pattern: one to three
colon groups followed by one or two digits, or two to four worded units. -/
def cdRegDe : Rx :=
  .alt (rxCat [.rep cdColon 1 (some 3), d12]) (.rep cdUnitDe 2 (some 4))

/-- The regex `regBad` of the German countdown pattern, matching strings with
too many numbers (four or more colon groups, or five or more worded units). -/
def cdRegBadDe : Rx :=
  .alt (rxCat [.rep cdColon 4 none, d12]) (.rep cdUnitDe 5 none)

/-- The English countdown time words. -/
def cdWordEn : Rx := rxAlts [
  rxCat [rxStr "day", rxOpt (rxCh 's')],
  rxCat [rxStr "hour", rxOpt (rxCh 's')],
  rxCat [rxStr "minute", rxOpt (rxCh 's')],
  rxCat [rxStr "second", rxOpt (rxCh 's')],
  rxCat [.rep (.cls alphaChar) 1 (some 3), rxOpt (rxCh '.')]]

/-- One worded English countdown unit (with an optional `and`). -/
def cdUnitEn : Rx := rxCat [d12, ws0, cdWordEn, rxOpt (rxCat [ws0, rxStr "and"]), ws0]

/-- The countdown regex of the English countdown pattern. -/
def cdRegEn : Rx :=
  .alt (rxCat [.rep cdColon 1 (some 3), d12]) (.rep cdUnitEn 2 (some 4))

/-- The `regBad` regex of the English countdown pattern. -/
def cdRegBadEn : Rx :=
  .alt (rxCat [.rep cdColon 4 none, d12]) (.rep cdUnitEn 5 none)

/-- Inner loop of the countdown pair comparison over the digit sequences of
one pair of matches: walking left to right, a strictly larger number in the
current state stops this pair (`break`), a strictly smaller number detects a
running countdown (`return true`), equal numbers continue. -/
def numbersLoop : List Nat → List Nat → Bool
  | nN :: rN, nO :: rO =>
    if nN > nO then false else if nN < nO then true else numbersLoop rN rO
  | _, _ => false

/-- All contiguous digit runs of a match, as numbers
(`match(/\d+/gi)` followed by `parseInt`). -/
def digitRuns (m : List Char) : List Nat :=
  (scanMatches dplus (m.length + 1) m).map listToNat

/-- Outer loop of the countdown comparison over the paired matches of the two
states: pairs whose digit-run counts differ are skipped (`continue`);
otherwise the digit comparison decides. -/
def pairsLoop : List (List Char × List Char) → Bool
  | [] => false
  | (mN, mO) :: rest =>
    let nN := digitRuns mN
    let nO := digitRuns mO
    if nN.length ≠ nO.length then pairsLoop rest
    else if numbersLoop nN nO then true
    else pairsLoop rest

/-- The countdown detection function (shared shape of the German and English
countdown patterns): require an old state with changed text, strip the
`regBad` matches from both texts, collect the `reg` matches of both, require
equally many, then compare the digit sequences pairwise. -/
def countdownDetection (reg regBad : Rx) (node : ENode) (nodeOld : Option ENode) : Bool :=
  match nodeOld with
  | none => false
  | some old =>
    if innerText node ≠ innerText old then
      let matchesOld := jsMatchG reg (jsStripG regBad (innerText old).data)
      let matchesNew := jsMatchG reg (jsStripG regBad (innerText node).data)
      match matchesNew, matchesOld with
      | some mNew, some mOld =>
        if mNew.length ≠ mOld.length then false
        else pairsLoop (mNew.zip mOld)
      | _, _ => false
    else false

/-- The scarcity regex of the German scarcity pattern: a number, optional
spaces, an optional unit (percent sign, `stück`, `stk`, `stk.`), spaces and a
keyword (`verfügbar`, `verkauft`, `eingelöst`); or the words
`letzter Artikel`. -/
def scarcityDeRx : Rx := .alt
  (rxCat [dplus, ws0,
          rxOpt (rxAlts [rxCh '%', rxStr "stück", rxStr "stk", rxStr "stk."]), ws0,
          rxAlts [rxStr "verfügbar", rxStr "verkauft", rxStr "eingelöst"]])
  (rxCat [rxStr "letzter", ws0, rxStr "Artikel"])

/-- The scarcity regex of the English scarcity pattern. -/
def scarcityEnRx : Rx := .alt
  (rxCat [dplus, ws0,
          rxOpt (rxAlts [rxCh '%',
            rxCat [rxStr "piece", rxOpt (rxCh 's')],
            rxCat [rxStr "pcs", rxOpt (rxCh '.')],
            rxCat [rxStr "pc", rxOpt (rxCh '.')],
            rxCat [rxStr "ct", rxOpt (rxCh '.')],
            rxCat [rxStr "item", rxOpt (rxCh 's')]]), ws0,
          rxAlts [rxStr "available", rxStr "sold", rxStr "claimed", rxStr "redeemed"]])
  (rxCat [rxAlts [rxStr "last", rxStr "final"], ws0,
          rxAlts [rxStr "article", rxStr "item"]])

/-- The social proof regex of the German social proof pattern. -/
def socialProofDeRx : Rx := rxCat [dplus, ws0, rxOpt (rxStr "andere"), ws0,
  rxAlts [rxStr "Kunden", rxStr "Personen"], ws0,
  rxAlts [rxStr "kauften", rxStr "bewerteten",
    rxCat [rxStr "haben", ws0,
      rxAlts [rxCat [rxStr "diese", rxAlts [rxCh 'n', rxCh 's']],
              rxStr "den",
              rxCat [rxStr "folgende", rxAlts [rxCh 'n', rxCh 's']]], ws0,
      rxAlts [rxStr "Produkt", rxStr "Artikel"], ws0, rxStr "mit", ws0,
      .rep (.cls dotChar) 1 (some 20), ws0, rxStr "bewertet"]]]

/-- The social proof regex of the English social proof pattern. -/
def socialProofEnRx : Rx := rxCat [dplus, ws0, rxOpt (rxStr "other"), ws0,
  rxAlts [rxCat [rxStr "customer", rxOpt (rxCh 's')],
          rxCat [rxStr "client", rxOpt (rxCh 's')],
          rxCat [rxStr "buyer", rxOpt (rxCh 's')],
          rxCat [rxStr "user", rxOpt (rxCh 's')],
          rxCat [rxStr "shopper", rxOpt (rxCh 's')],
          rxStr "people"], ws0,
  rxOpt (rxCat [rxStr "have", ws1]), ws0,
  rxAlts [rxCat [rxOpt (rxCat [rxStr "also", ws0]),
                 rxAlts [rxStr "bought", rxStr "purchased", rxStr "ordered"]],
          rxAlts [rxStr "rated", rxStr "reviewed"]], ws0,
  rxAlts [rxStr "this", rxCat [rxStr "the", ws0, rxStr "following"]], ws0,
  rxAlts [rxStr "product", rxStr "article", rxStr "item"], rxOpt (rxCh 's')]

/-- A German price: a number with an optional comma and two decimals. -/
def fcPriceDe : Rx := rxCat [dplus, rxOpt (rxCat [rxCh ',', .rep (.cls digitChar) 2 (some 2)])]

/-- The German currency specification `Euro` or the euro sign. -/
def fcEuroDe : Rx := rxAlts [rxStr "Euro", rxCh '€']

/-- The forced continuity regex of the German forced continuity pattern
(three alternatives combining a euro price and a month specification). -/
def forcedContinuityDeRx : Rx := rxAlts [
  rxCat [fcPriceDe, ws0, fcEuroDe, ws0, rxStr "ab", ws0, rxOpt (rxStr "dem"), ws0,
         dplus, rxCh '.', ws0, rxStr "Monat"],
  rxCat [rxAlts [rxStr "anschließend", rxStr "danach"], ws0, fcPriceDe, ws0, fcEuroDe,
         ws0, rxAlts [rxStr "pro", rxCh '/'], ws0, rxStr "Monat"],
  rxCat [rxStr "ab", rxOpt (rxCat [ws0, rxStr "dem"]), ws0, dplus, rxCh '.', ws0,
         rxStr "Monat", rxOpt (rxCat [ws0, rxStr "nur"]), ws0, fcPriceDe, ws0, fcEuroDe]]

/-- A currency symbol or code placed before the amount in the English forced
continuity regex. -/
def fcCurEn : Rx := rxAlts [rxCh '€', rxStr "EUR", rxStr "GBP", rxCh '£', rxCh '$', rxStr "USD"]

/-- An optional dot and two decimals of an English price. -/
def fcCentsEn : Rx := rxOpt (rxCat [rxCh '.', .rep (.cls digitChar) 2 (some 2)])

/-- A currency word or symbol placed after the amount in the English forced
continuity regex. -/
def fcCurNameEn : Rx := rxAlts [
  rxCat [rxStr "euro", rxOpt (rxCh 's')],
  rxCh '€', rxStr "EUR", rxStr "GBP", rxCh '£',
  rxCat [rxStr "pound", rxOpt (rxCh 's'), rxOpt (rxCat [ws0, rxStr "sterling"])],
  rxCh '$', rxStr "USD",
  rxCat [rxStr "dollar", rxOpt (rxCh 's')]]

/-- An English money amount: currency before or after the number. -/
def fcMoneyEn : Rx :=
  .alt (rxCat [fcCurEn, ws0, dplus, fcCentsEn]) (rxCat [dplus, fcCentsEn, ws0, fcCurNameEn])

/-- The optional English ordinal suffix. -/
def fcOrdEn : Rx := rxOpt (rxAlts [rxStr "th", rxStr "nd", rxStr "rd", rxStr "th"])

/-- The forced continuity regex of the English forced continuity pattern
(three alternatives combining a money amount and a month specification). -/
def forcedContinuityEnRx : Rx := rxAlts [
  rxCat [fcMoneyEn, ws0,
         rxOpt (rxCat [rxAlts [rxStr "per", rxCh '/', rxCh 'p'], ws0,
                       rxAlts [rxStr "month", rxCh 'm']]), ws0,
         rxStr "after", ws0, rxOpt (rxStr "the"), ws0, dplus, fcOrdEn, ws0,
         rxStr "month", rxOpt (rxCh 's')],
  rxCat [rxAlts [rxCat [rxStr "after", ws0, rxStr "that"], rxStr "then",
                 rxStr "afterwards", rxStr "subsequently"], ws0, fcMoneyEn, ws0,
         rxAlts [rxCat [rxAlts [rxStr "per", rxCh '/', rxCh 'a'], ws0, rxStr "month"],
                 rxCat [rxAlts [rxCh 'p', rxCh '/'], rxCh 'm']]],
  rxCat [rxStr "after", ws0, rxOpt (rxStr "the"), ws0, dplus, fcOrdEn, ws0,
         rxStr "month", rxOpt (rxCh 's'), ws0, rxOpt (rxAlts [rxStr "only", rxStr "just"]),
         ws0, fcMoneyEn]]

/-- The detection function of the German countdown pattern. -/
def countdownDeDetection (node : ENode) (nodeOld : Option ENode) : Bool :=
  countdownDetection cdRegDe cdRegBadDe node nodeOld

/-- The detection function of the English countdown pattern. -/
def countdownEnDetection (node : ENode) (nodeOld : Option ENode) : Bool :=
  countdownDetection cdRegEn cdRegBadEn node nodeOld

/-- The detection function of the German scarcity pattern; the previous state
of the element is not used. -/
def scarcityDeDetection (node : ENode) (_nodeOld : Option ENode) : Bool :=
  jsTest scarcityDeRx (innerText node)

/-- The detection function of the English scarcity pattern. -/
def scarcityEnDetection (node : ENode) (_nodeOld : Option ENode) : Bool :=
  jsTest scarcityEnRx (innerText node)

/-- The detection function of the German social proof pattern. -/
def socialProofDeDetection (node : ENode) (_nodeOld : Option ENode) : Bool :=
  jsTest socialProofDeRx (innerText node)

/-- The detection function of the English social proof pattern. -/
def socialProofEnDetection (node : ENode) (_nodeOld : Option ENode) : Bool :=
  jsTest socialProofEnRx (innerText node)

/-- The detection function of the German forced continuity pattern. -/
def forcedContinuityDeDetection (node : ENode) (_nodeOld : Option ENode) : Bool :=
  jsTest forcedContinuityDeRx (innerText node)

/-- The detection function of the English forced continuity pattern. -/
def forcedContinuityEnDetection (node : ENode) (_nodeOld : Option ENode) : Bool :=
  jsTest forcedContinuityEnRx (innerText node)

/-- The pattern configuration of `scripts/constants.js`: the eight pattern
definitions in registry order, each with its display name, class name, the
single two-argument detection function, and the info fields. -/
def patternConfig : PatternConfig :=
  { patterns := [
    { name := getMessage "patternCountdownDE_name", className := "countdown-de",
      detectionFunctions := [⟨2, fun n o => .ok (countdownDeDetection n o)⟩],
      infoUrl := getMessage "patternCountdownDE_infoUrl",
      info := getMessage "patternCountdownDE_info" },
    { name := getMessage "patternScarcityDE_name", className := "scarcity",
      detectionFunctions := [⟨2, fun n o => .ok (scarcityDeDetection n o)⟩],
      infoUrl := getMessage "patternScarcityDE_infoUrl",
      info := getMessage "patternScarcityDE_info" },
    { name := getMessage "patternSocialProofDE_name", className := "social-proof",
      detectionFunctions := [⟨2, fun n o => .ok (socialProofDeDetection n o)⟩],
      infoUrl := getMessage "patternSocialProofDE_infoUrl",
      info := getMessage "patternSocialProofDE_info" },
    { name := getMessage "patternForcedContinuityDE_name", className := "forced-continuity",
      detectionFunctions := [⟨2, fun n o => .ok (forcedContinuityDeDetection n o)⟩],
      infoUrl := getMessage "patternForcedContinuityDE_infoUrl",
      info := getMessage "patternForcedContinuityDE_info" },
    { name := "countdown-en", className := "countdown-en",
      detectionFunctions := [⟨2, fun n o => .ok (countdownEnDetection n o)⟩],
      infoUrl := getMessage "patternCountdownDE_infoUrl",
      info := getMessage "patternCountdownDE_info" },
    { name := "scarcity-en", className := "scarcity-en",
      detectionFunctions := [⟨2, fun n o => .ok (scarcityEnDetection n o)⟩],
      infoUrl := getMessage "patternScarcityDE_infoUrl",
      info := getMessage "patternScarcityDE_info" },
    { name := "social-proof-en", className := "social-proof-en",
      detectionFunctions := [⟨2, fun n o => .ok (socialProofEnDetection n o)⟩],
      infoUrl := getMessage "patternSocialProofDE_infoUrl",
      info := getMessage "patternSocialProofDE_info" },
    { name := "forced-continuity-en", className := "forced-continuity-en",
      detectionFunctions := [⟨2, fun n o => .ok (forcedContinuityEnDetection n o)⟩],
      infoUrl := getMessage "patternForcedContinuityDE_infoUrl",
      info := getMessage "patternForcedContinuityDE_info" }] }

/-- Prefix for all CSS classes added by the extension. -/
def extensionClassBase : String := "__ph__"

/-- The class added to every element detected as a pattern. -/
def patternDetectedClassName : String := extensionClassBase ++ "pattern-detected"

/- ========================================================================
   Part 6: registry validation (`validatePatternConfig`).
   ======================================================================== -/

/-- `validatePatternConfig()`: the configuration is invalid when two patterns
share a name, or when any pattern has an empty name, class name, info URL or
info text, an empty detection function list, or a detection function that is
not a function of two declared arguments.  (The `typeof`/`Array.isArray`
checks of the source hold by construction in the typed model; the remaining
content of each check is emptiness of the string or list and the declared
arity.) -/
def validatePatternConfig (cfg : PatternConfig) : Bool :=
  let names := cfg.patterns.map Pattern.name
  if names.dedup.length ≠ names.length then false
  else cfg.patterns.all fun p =>
    !(p.name = "") && !(p.className = "") &&
    !(p.detectionFunctions.length ≤ 0) &&
    p.detectionFunctions.all (fun f => f.arity == 2) &&
    !(p.infoUrl = "") && !(p.info = "")

/- ========================================================================
   Part 7: the tree matcher (`findPatternDeep`).
   ======================================================================== -/

/-- Ghost audit event of one classification pass: `eval id seen` records that
a node with ID `id` (`none` for the unstamped snapshot root) was passed to
`findPatterInNode` while its subtree carried exactly the IDs `seen`;
`tag id` records that the live element with ID `id` received the
classification classes. -/
inductive LEvent where
  | eval (id : Option Nat) (seen : List Nat)
  | tag (id : Nat)

/-- State threaded through one classification pass: the older snapshot
(`domCopyA`, mutated by `nodeOld.remove()`), the live document (mutated by
`classList.add`), and the ghost audit log.  The log is instrumentation only:
it is absent from the source and never influences `older`, `live` or the
traversal. -/
structure CState where
  older : ENode
  live : ENode
  log : List LEvent

/-- The two classes added to a detected element. -/
def tagClassesFor (className : String) : List String :=
  [patternDetectedClassName, extensionClassBase ++ className]

/-- The per-node tail of `findPatternDeep`, applied after the children have
been processed (`node'` is the node with its processed children): look up the
node's previous state in the older snapshot by ID, record the evaluation in
the ghost log, evaluate the registry, and on a match tag the live element (if
it still exists, recording the tag in the ghost log), remove the previous
state from the older snapshot and remove the node itself (signalled by
returning `none`).  A detection function exception propagates — there is no
handler in the source. -/
def processNode (cfg : PatternConfig) (node' : ENode) (st1 : CState) :
    Except String (Option ENode × CState) :=
  let nodeOld :=
    match node'.phid with
    | some id => getElementByPhid st1.older id
    | none => none
  let st2 := { st1 with log := st1.log ++ [.eval node'.phid (phids node')] }
  match findPatterInNode cfg node' nodeOld with
  | .error e => .error e
  | .ok none => .ok (some node', st2)
  | .ok (some className) =>
    let st3 :=
      match node'.phid with
      | some id =>
        let r := tagPhid id (tagClassesFor className) st2.live
        if r.2 then { st2 with live := r.1, log := st2.log ++ [.tag id] } else st2
      | none => st2
    let st4 :=
      match node'.phid, nodeOld with
      | some id, some _ =>
        { st3 with older := (removePhid id st3.older).1 }
      | _, _ => st3
    .ok (none, st4)

mutual
/-- `findPatternDeep(node, domOld)`: recurse over the children first
(post-order), then run `processNode` on the node with its processed
children.  The fuel decreases on every call and only rules out
non-termination; `classify` supplies enough for any tree. -/
def findPatternDeep : Nat → PatternConfig → ENode → CState →
    Except String (Option ENode × CState)
  | 0, _, _, _ => .error "fuel exhausted"
  | fuel+1, cfg, node, st =>
    match findPatternDeepChildren fuel cfg node.children st with
    | .error e => .error e
    | .ok (cs', st1) => processNode cfg (node.withChildren cs') st1

/-- The child iteration of `findPatternDeep`: `for (const child of
node.children)` iterates a live `HTMLCollection` by index, so when a child
matches and removes itself the following sibling shifts into its index and is
skipped by the iterator.  The first list is the remaining (current) children;
a processed child is replaced by its processed form or dropped when removed,
and the sibling following a removed child is kept unprocessed. -/
def findPatternDeepChildren : Nat → PatternConfig → List ENode → CState →
    Except String (List ENode × CState)
  | 0, _, _, _ => .error "fuel exhausted"
  | _+1, _, [], st => .ok ([], st)
  | fuel+1, cfg, c :: rest, st =>
    match findPatternDeep fuel cfg c st with
    | .error e => .error e
    | .ok (some c', st') =>
      match findPatternDeepChildren fuel cfg rest st' with
      | .error e => .error e
      | .ok (out, st'') => .ok (c' :: out, st'')
    | .ok (none, st') =>
      match rest with
      | [] => .ok ([], st')
      | skipped :: rest' =>
        match findPatternDeepChildren fuel cfg rest' st' with
        | .error e => .error e
        | .ok (out, st'') => .ok (skipped :: out, st'')
end

/-- One classification pass over a snapshot pair: run `findPatternDeep` on the
newer snapshot (`domCopyB`) against the older snapshot (`domCopyA`), tagging
matched elements in the live tree.  The fuel `2 * esize newer + 2` is
sufficient for any tree since every visited node consumes at most two units. -/
def classify (cfg : PatternConfig) (newer older live : ENode) :
    Except String (Option ENode × CState) :=
  findPatternDeep (2 * esize newer + 2) cfg newer { older := older, live := live, log := [] }

/-- The live tree after a classification pass (unchanged when the pass
aborts with an exception). -/
def classifyLiveResult (cfg : PatternConfig) (newer older live : ENode) : ENode :=
  match classify cfg newer older live with
  | .ok (_, st) => st.live
  | .error _ => live

/-- The ghost audit log of a classification pass. -/
def classifyLog (cfg : PatternConfig) (newer older live : ENode) : List LEvent :=
  match classify cfg newer older live with
  | .ok (_, st) => st.log
  | .error _ => []

/-- The IDs recorded as tagged in an audit log, in order. -/
def tagsOf (l : List LEvent) : List Nat :=
  l.filterMap fun e =>
    match e with
    | .tag id => some id
    | .eval _ _ => none

/-- Pruning soundness of an audit log: walking the log left to right with the
accumulator of already-tagged IDs, every evaluation sees a subtree containing
none of the previously tagged IDs. -/
def logOkB : List Nat → List LEvent → Bool
  | _, [] => true
  | acc, .tag id :: rest => logOkB (id :: acc) rest
  | acc, .eval _ seen :: rest => acc.all (fun p => !(seen.contains p)) && logOkB acc rest

/-- Does the element with the given ID exist in the tree and carry the
generic pattern-detected class? -/
def hasPatternClass (t : ENode) (id : Nat) : Bool :=
  match findPhid id t with
  | some e => e.classes.contains patternDetectedClassName
  | none => false

/-- Is the element with ID `a` a strict ancestor of an element with ID `b`? -/
def strictAncestorOf (t : ENode) (a b : Nat) : Bool :=
  match findPhid a t with
  | some e => (phidsL e.children).contains b
  | none => false

/- ========================================================================
   Part 8: result aggregation (`getPatternsResults`).
   ======================================================================== -/

/-- `elementIsVisible(elem)`: an element with `visibility: hidden`,
`display: none` or `opacity: 0` is invisible; otherwise it is visible exactly
when it has a non-zero offset width, offset height or client-rect count. -/
def elementIsVisible (e : ENode) : Bool :=
  if e.vis.visibility == "hidden" || e.vis.display == "none" || e.vis.opacity == "0" then
    false
  else
    !(e.vis.offsetWidth == 0) || !(e.vis.offsetHeight == 0) || !(e.vis.clientRectsLen == 0)

/-- `document.getElementsByClassName(name)`: all elements of the live tree
carrying the class, in document order. -/
def getElementsByClass (name : String) (t : ENode) : List ENode :=
  (nodesOf t).filter (fun e => e.classes.contains name)

/-- The per-pattern entry of the result object: the pattern's name and the
pattern highlighter IDs of its detected elements, split into visible and
hidden (`elem.dataset.phid` is `none` for an unstamped element). -/
structure PatternResult where
  name : String
  elementsVisible : List (Option Nat)
  elementsHidden : List (Option Nat)

/-- The result object of `getPatternsResults`. -/
structure RunResults where
  patterns : List PatternResult
  countVisible : Nat
  count : Nat

/-- The loop body of `getPatternsResults` for one pattern: collect the
elements carrying the pattern's class and push each ID into the visible or
hidden list according to `elementIsVisible`. -/
def patternResultFor (live : ENode) (p : Pattern) : PatternResult :=
  let elems := getElementsByClass (extensionClassBase ++ p.className) live
  { name := p.name,
    elementsVisible := (elems.filter elementIsVisible).map ENode.phid,
    elementsHidden := (elems.filter (fun e => !elementIsVisible e)).map ENode.phid }

/-- `getPatternsResults()`: one entry per pattern in registry order;
`countVisible` accumulates the visible elements across patterns, `count`
accumulates visible plus hidden. -/
def getPatternsResults (cfg : PatternConfig) (live : ENode) : RunResults :=
  let prs := cfg.patterns.map (patternResultFor live)
  { patterns := prs,
    countVisible := (prs.map (fun pr => pr.elementsVisible.length)).sum,
    count := (prs.map (fun pr => pr.elementsVisible.length + pr.elementsHidden.length)).sum }

/- ========================================================================
   Part 9: the run scheduler (`patternHighlighting`, `observer`, `lock`).
   ======================================================================== -/

/-- Abstract scheduler state of the content script.
`lock` is the re-entrancy flag of `patternHighlighting`; `connected` records
whether the `MutationObserver` is observing; `pendingCallbacks` counts
observer callback invocations that have been queued (a mutation record was
enqueued and its delivery microtask is outstanding); `running` counts
classification passes currently executing and `started` counts passes ever
started. -/
structure SchedState where
  lock : Bool
  connected : Bool
  pendingCallbacks : Nat
  running : Nat
  started : Nat
deriving DecidableEq

/-- Scheduler events: a DOM change, the delivery of a queued observer
callback (which invokes `patternHighlighting(true)`), the
`redoPatternHighlighting` message (which invokes `patternHighlighting()`),
and the completion of a running pass. -/
inductive SchedEvent where
  | domChange
  | deliverCallback
  | redoMessage
  | finishRun
deriving DecidableEq

/-- Entry of `patternHighlighting`: if `lock` is set the invocation returns
immediately (the request is dropped, not queued); otherwise the lock is set
and `observer.disconnect()` runs, which stops observation and empties the
record queue, discarding any still-queued callback deliveries. -/
def startRun (s : SchedState) : SchedState :=
  if s.lock then s
  else { s with
         lock := true
         connected := false
         pendingCallbacks := 0
         running := s.running + 1
         started := s.started + 1 }

/-- One scheduler step.  A DOM change queues a callback only while the
observer is connected; delivering a queued callback or receiving the redo
message invokes `patternHighlighting`; a finishing pass reconnects the
observer (`observer.observe(...)`, reporting only future mutations) and
clears the lock. -/
def schedStep (s : SchedState) : SchedEvent → SchedState
  | .domChange =>
    if s.connected then { s with pendingCallbacks := s.pendingCallbacks + 1 } else s
  | .deliverCallback =>
    if s.pendingCallbacks > 0 then
      startRun { s with pendingCallbacks := s.pendingCallbacks - 1 }
    else s
  | .redoMessage => startRun s
  | .finishRun =>
    if s.running > 0 then
      { s with
        running := s.running - 1
        connected := true
        lock := false }
    else s

/-- Initial scheduler state: no lock, no observation, nothing queued. -/
def schedInit : SchedState :=
  { lock := false, connected := false, pendingCallbacks := 0, running := 0, started := 0 }

/-- The scheduler state after processing a sequence of events from start. -/
def schedRun (evs : List SchedEvent) : SchedState :=
  evs.foldl schedStep schedInit

/- ========================================================================
   Part 10: concrete example trees used by counterexamples and witnesses.
   ======================================================================== -/

/-- An element whose text matches the German scarcity rule, child of
`exParent`. -/
def exChild : ENode := .mk (some 2) "10 Stück verfügbar" [] {} []

/-- An element with its own scarcity text and a scarcity-matching child. -/
def exParent : ENode := .mk (some 1) "5 Stück verfügbar" [] {} [exChild]

/-- A snapshot/live root (the `document.body` clone, which carries no
pattern highlighter ID). -/
def exRoot : ENode := .mk none "" [] {} [exParent]

/-- A registry with two pattern definitions sharing the same name. -/
def dupNameConfig : PatternConfig := { patterns := [
  { name := "duplicate", className := "x",
    detectionFunctions := [⟨2, fun _ _ => .ok false⟩], infoUrl := "u", info := "i" },
  { name := "duplicate", className := "y",
    detectionFunctions := [⟨2, fun _ _ => .ok false⟩], infoUrl := "u", info := "i" }] }

/-- A registry whose first pattern has a throwing detection function and
whose second pattern would match every node. -/
def throwingConfig : PatternConfig := { patterns := [
  { name := "throwing", className := "throwing",
    detectionFunctions := [⟨2, fun _ _ => .error "detector exception"⟩],
    infoUrl := "u", info := "i" },
  { name := "matching", className := "matching",
    detectionFunctions := [⟨2, fun _ _ => .ok true⟩],
    infoUrl := "u", info := "i" }] }

/-- Does this detection function return `true` on the node pair (without
throwing)? -/
def detHit (f : DetectionFunction) (node : ENode) (nodeOld : Option ENode) : Bool :=
  match f.fn node nodeOld with
  | .ok true => true
  | _ => false

/-- Specification-side description of pattern evaluation: the class tag of
the first pattern definition, in registry order, having a detector that
returns `true`; `none` when no definition has one. -/
def specFirstMatch (cfg : PatternConfig) (node : ENode) (nodeOld : Option ENode) :
    Option String :=
  (cfg.patterns.find? fun p =>
    p.detectionFunctions.any fun f => detHit f node nodeOld).map Pattern.className

/-- A registry whose first two patterns both match every node. -/
def priorityConfig : PatternConfig := { patterns := [
  { name := "first", className := "first-pattern",
    detectionFunctions := [⟨2, fun _ _ => .ok true⟩], infoUrl := "u", info := "i" },
  { name := "second", className := "second-pattern",
    detectionFunctions := [⟨2, fun _ _ => .ok true⟩], infoUrl := "u", info := "i" }] }

/-- Inductive invariant of the scheduler: while the lock is held exactly one
pass runs, the observer is disconnected and nothing is queued; without the
lock no pass runs. -/
def schedInv (s : SchedState) : Prop :=
  (s.lock = true → s.running = 1 ∧ s.connected = false ∧ s.pendingCallbacks = 0) ∧
  (s.lock = false → s.running = 0)

mutual
/-- Does every element of the subtree carry a pattern highlighter ID? -/
def allStamped : ENode → Bool
  | .mk p _ _ _ cs => p.isSome && allStampedL cs
def allStampedL : List ENode → Bool
  | [] => true
  | c :: cs => allStamped c && allStampedL cs
end

/-- A live tree with one visible and one hidden tagged element. -/
def taggedLiveExample : ENode := .mk none "" [] {} [
  .mk (some 1) "" [patternDetectedClassName, extensionClassBase ++ "scarcity"]
    { offsetWidth := 5 } [],
  .mk (some 2) "" [patternDetectedClassName, extensionClassBase ++ "scarcity"] {} []]

/-- The tag accumulator after walking a log prefix (newest first). -/
def tagsAcc : List LEvent → List Nat → List Nat
  | [], acc => acc
  | .tag id :: rest, acc => tagsAcc rest (id :: acc)
  | .eval _ _ :: rest, acc => tagsAcc rest acc

/- ========================================================================
   Part 11: claims C5, C6, C10 (detection function scenarios).
   ======================================================================== -/

set_option maxRecDepth 40000 in
/-- C5: for a node whose previous-state counterpart exists under the same
identity with text `23:59:58` and whose current text is `23:59:57`, the
countdown detection function returns `true`; with unchanged text `23:59:58`
in both states it returns `false`. -/
theorem countdown_scenario :
    countdownDeDetection (.mk (some 7) "23:59:57" [] {} [])
      (some (.mk (some 7) "23:59:58" [] {} [])) = true ∧
    countdownDeDetection (.mk (some 7) "23:59:58" [] {} [])
      (some (.mk (some 7) "23:59:58" [] {} [])) = false := by
  constructor <;> decide

set_option maxRecDepth 40000 in
/-- C6: a node with current text `10 Stück verfügbar` and no previous-state
counterpart matches the scarcity detection function, and the scarcity rule
depends only on the current state: its result is the same for every value of
the previous state. -/
theorem scarcity_scenario :
    scarcityDeDetection (.mk (some 3) "10 Stück verfügbar" [] {} []) none = true ∧
    ∀ (node : ENode) (nodeOld : Option ENode),
      scarcityDeDetection node nodeOld = scarcityDeDetection node none :=
  ⟨by decide, fun _ _ => rfl⟩

/-- C10: every countdown detection function returns `false` whenever the
node's previous-state counterpart is absent or the node's text is unchanged
between the two states, so a newly inserted element is never classified as a
countdown in the pass that first observes it. -/
theorem countdown_requires_changed_text (node o : ENode)
    (h : innerText node = innerText o) :
    countdownDeDetection node none = false ∧
    countdownDeDetection node (some o) = false ∧
    countdownEnDetection node none = false ∧
    countdownEnDetection node (some o) = false := by
  refine ⟨rfl, ?_, rfl, ?_⟩ <;>
    simp [countdownDeDetection, countdownEnDetection, countdownDetection, h]

/-- Witness for C10 at a concrete node pair with equal text. -/
theorem countdown_requires_changed_text_witness :
    innerText (ENode.mk (some 5) "23:59:58" [] {} []) =
      innerText (ENode.mk (some 6) "23:59:58" [] {} []) ∧
    countdownDeDetection (ENode.mk (some 5) "23:59:58" [] {} [])
      (some (ENode.mk (some 6) "23:59:58" [] {} [])) = false :=
  ⟨rfl, (countdown_requires_changed_text
    (ENode.mk (some 5) "23:59:58" [] {} []) (ENode.mk (some 6) "23:59:58" [] {} []) rfl).2.1⟩

/- ========================================================================
   Part 12: claim C7 (registry validation fails closed).
   ======================================================================== -/

/-- C7: `validatePatternConfig` returns `false` for any registry with a
duplicated pattern name, and likewise whenever any pattern has an empty name,
class name, info URL or info text, an empty detection function list, or a
detection function that is not a two-argument predicate.  The whole registry
is rejected, not just the offending pattern. -/
theorem validate_fails_closed (cfg : PatternConfig)
    (h : ¬ (cfg.patterns.map Pattern.name).Nodup ∨
         ∃ p ∈ cfg.patterns, p.name = "" ∨ p.className = "" ∨
           p.detectionFunctions = [] ∨ (∃ f ∈ p.detectionFunctions, f.arity ≠ 2) ∨
           p.infoUrl = "" ∨ p.info = "") :
    validatePatternConfig cfg = false := by
  by_cases hd : (cfg.patterns.map Pattern.name).dedup.length =
      (cfg.patterns.map Pattern.name).length
  case neg =>
    unfold validatePatternConfig
    rw [if_pos hd]
  case pos =>
    have hnodup : (cfg.patterns.map Pattern.name).Nodup := by
      have hsub := List.dedup_sublist (cfg.patterns.map Pattern.name)
      have heq := hsub.eq_of_length hd
      rw [← heq]
      exact List.nodup_dedup _
    rcases h with h | ⟨p, hp, hbad⟩
    · exact absurd hnodup h
    · unfold validatePatternConfig
      rw [if_neg (by simp [hd])]
      apply List.all_eq_false.mpr
      refine ⟨p, hp, fun hc => ?_⟩
      simp only [Bool.and_eq_true, Bool.not_eq_true', decide_eq_false_iff_not,
        List.all_eq_true, beq_iff_eq] at hc
      obtain ⟨⟨⟨⟨⟨h1, h2⟩, h3⟩, h4⟩, h5⟩, h6⟩ := hc
      rcases hbad with hb | hb | hb | ⟨f, hf, hb⟩ | hb | hb
      · exact h1 hb
      · exact h2 hb
      · exact h3 (by simp [hb])
      · exact hb (h4 f hf)
      · exact h5 hb
      · exact h6 hb

/-- Witness for C7: the duplicate-name registry fails validation. -/
theorem validate_fails_closed_witness :
    ¬ (dupNameConfig.patterns.map Pattern.name).Nodup ∧
    validatePatternConfig dupNameConfig = false :=
  ⟨by decide, validate_fails_closed dupNameConfig (Or.inl (by decide))⟩

/- ========================================================================
   Part 13: claim C3 (detector exceptions are NOT swallowed).
   ======================================================================== -/

/-- Counterexample for C3: with a throwing detector, evaluation does NOT
continue with the remaining definitions — `findPatterInNode` propagates the
exception instead of returning the second pattern's class, and the whole
classification pass aborts with the exception. -/
theorem detector_throw_counterexample :
    findPatterInNode throwingConfig (.mk (some 1) "x" [] {} []) none =
      .error "detector exception" ∧
    classify throwingConfig (.mk none "" [] {} [.mk (some 1) "x" [] {} []])
      (.mk none "" [] {} []) (.mk none "" [] {} []) =
      .error "detector exception" :=
  ⟨rfl, rfl⟩

/-- Helper: a list of detection functions that all return `.ok false` on the
given node pair evaluates to `.ok false`. -/
theorem runDetectionFunctions_all_false (node : ENode) (nodeOld : Option ENode)
    (fs : List DetectionFunction) (h : ∀ g ∈ fs, g.fn node nodeOld = .ok false) :
    runDetectionFunctions node nodeOld fs = .ok false := by
  induction fs with
  | nil => rfl
  | cons g fs ih =>
    have hg := h g (List.mem_cons_self g fs)
    simp only [runDetectionFunctions, hg]
    exact ih fun g' hg' => h g' (List.mem_cons_of_mem g hg')

/-- C3 amended: a missing counterpart or missing live element is tolerated,
but an individual detector that throws is not caught anywhere — the exception
propagates out of `findPatterInNode` (and hence aborts the classification
pass): if every detector evaluated before the throwing one returns `false`,
the result is the exception, and the remaining detectors and definitions are
never评 consulted. -/
theorem detector_throw_propagates (cfg : PatternConfig) (node : ENode)
    (nodeOld : Option ENode) (ps1 ps2 : List Pattern) (p : Pattern)
    (fs1 fs2 : List DetectionFunction) (f : DetectionFunction) (e : String)
    (hcfg : cfg.patterns = ps1 ++ p :: ps2)
    (hp : p.detectionFunctions = fs1 ++ f :: fs2)
    (h1 : ∀ q ∈ ps1, ∀ g ∈ q.detectionFunctions, g.fn node nodeOld = .ok false)
    (h2 : ∀ g ∈ fs1, g.fn node nodeOld = .ok false)
    (hf : f.fn node nodeOld = .error e) :
    findPatterInNode cfg node nodeOld = .error e := by
  have hrun : runDetectionFunctions node nodeOld (fs1 ++ f :: fs2) = .error e := by
    clear hp
    induction fs1 with
    | nil => simp only [List.nil_append, runDetectionFunctions, hf]
    | cons g fs1 ih =>
      have hg := h2 g (List.mem_cons_self g fs1)
      simp only [List.cons_append, runDetectionFunctions, hg]
      exact ih fun g' hg' => h2 g' (List.mem_cons_of_mem g hg')
  unfold findPatterInNode
  rw [hcfg]
  clear hcfg
  induction ps1 with
  | nil =>
    simp only [List.nil_append, findPatterInNodeGo, hp, hrun]
  | cons q ps1 ih =>
    have hq := runDetectionFunctions_all_false node nodeOld q.detectionFunctions
      (h1 q (List.mem_cons_self q ps1))
    simp only [List.cons_append, findPatterInNodeGo, hq]
    exact ih fun q' hq' => h1 q' (List.mem_cons_of_mem q hq')

/-- Witness for C3 amended at the concrete throwing registry. -/
theorem detector_throw_propagates_witness :
    throwingConfig.patterns = [] ++
      { name := "throwing", className := "throwing",
        detectionFunctions := [⟨2, fun _ _ => .error "detector exception"⟩],
        infoUrl := "u", info := "i" } ::
      [{ name := "matching", className := "matching",
         detectionFunctions := [⟨2, fun _ _ => .ok true⟩],
         infoUrl := "u", info := "i" }] ∧
    findPatterInNode throwingConfig (.mk (some 1) "x" [] {} []) none =
      .error "detector exception" :=
  ⟨rfl, detector_throw_propagates throwingConfig (.mk (some 1) "x" [] {} []) none
    [] _ _ [] [] _ "detector exception" rfl rfl
    (fun q hq => absurd hq (List.not_mem_nil q))
    (fun g hg => absurd hg (List.not_mem_nil g)) rfl⟩

/- ========================================================================
   Part 14: claim C2 (registry order is a priority order).
   ======================================================================== -/

/-- Helper: on throw-free detectors, `runDetectionFunctions` computes whether
any detector returns `true`. -/
theorem runDetectionFunctions_eq_any (node : ENode) (nodeOld : Option ENode)
    (fs : List DetectionFunction)
    (h : ∀ f ∈ fs, ∃ b, f.fn node nodeOld = .ok b) :
    runDetectionFunctions node nodeOld fs =
      .ok (fs.any fun f => detHit f node nodeOld) := by
  induction fs with
  | nil => rfl
  | cons f fs ih =>
    obtain ⟨b, hb⟩ := h f (List.mem_cons_self f fs)
    have ihr := ih fun f' hf' => h f' (List.mem_cons_of_mem f hf')
    cases b with
    | true =>
      simp only [runDetectionFunctions, hb, List.any_cons, detHit, Bool.true_or]
    | false =>
      simp only [runDetectionFunctions, hb, ihr, List.any_cons, detHit, Bool.false_or]

/-- Helper: `findPatterInNodeGo` on a throw-free pattern list returns the
class name of the first pattern with a detector hit. -/
theorem findPatterInNodeGo_first_match (node : ENode) (nodeOld : Option ENode)
    (ps : List Pattern)
    (h : ∀ p ∈ ps, ∀ f ∈ p.detectionFunctions, ∃ b, f.fn node nodeOld = .ok b) :
    findPatterInNodeGo node nodeOld ps =
      .ok ((ps.find? fun p =>
        p.detectionFunctions.any fun f => detHit f node nodeOld).map Pattern.className) := by
  induction ps with
  | nil => rfl
  | cons p ps ih =>
    have hrun := runDetectionFunctions_eq_any node nodeOld p.detectionFunctions
      (h p (List.mem_cons_self p ps))
    have ihr := ih fun q hq => h q (List.mem_cons_of_mem p hq)
    cases hany : (p.detectionFunctions.any fun f => detHit f node nodeOld) with
    | true =>
      rw [hany] at hrun
      simp [findPatterInNodeGo, hrun, List.find?, hany]
    | false =>
      rw [hany] at hrun
      simp [findPatterInNodeGo, hrun, List.find?, hany, ihr]

/-- C2: on a node pair on which no detector throws, `findPatterInNode` runs
the registry's pattern definitions in their configured order and returns the
class tag of the first definition having a detector that returns `true`
(`none` when none does) — so a node is attributed to at most one pattern per
pass, and when two definitions would both match, the earlier-registered one
wins. -/
theorem findPatterInNode_first_match (cfg : PatternConfig) (node : ENode)
    (nodeOld : Option ENode)
    (h : ∀ p ∈ cfg.patterns, ∀ f ∈ p.detectionFunctions, ∃ b, f.fn node nodeOld = .ok b) :
    findPatterInNode cfg node nodeOld = .ok (specFirstMatch cfg node nodeOld) :=
  findPatterInNodeGo_first_match node nodeOld cfg.patterns h

/-- Witness for C2: with two always-matching definitions, the node is
attributed to the earlier-registered one only. -/
theorem findPatterInNode_first_match_witness :
    (∀ p ∈ priorityConfig.patterns, ∀ f ∈ p.detectionFunctions,
      ∃ b, f.fn (.mk (some 1) "x" [] {} []) none = .ok b) ∧
    findPatterInNode priorityConfig (.mk (some 1) "x" [] {} []) none =
      .ok (specFirstMatch priorityConfig (.mk (some 1) "x" [] {} []) none) ∧
    specFirstMatch priorityConfig (.mk (some 1) "x" [] {} []) none =
      some "first-pattern" := by
  refine ⟨?_, ?_, rfl⟩
  · intro p hp f hf
    fin_cases hp <;> fin_cases hf <;> exact ⟨true, rfl⟩
  · exact findPatterInNode_first_match priorityConfig (.mk (some 1) "x" [] {} []) none
      (by intro p hp f hf; fin_cases hp <;> fin_cases hf <;> exact ⟨true, rfl⟩)

/- ========================================================================
   Part 15: claim C9 (scheduler: single flight, dropped requests).
   ======================================================================== -/

/-- The invariant is preserved by every scheduler step. -/
theorem schedInv_step (s : SchedState) (hs : schedInv s) (e : SchedEvent) :
    schedInv (schedStep s e) := by
  obtain ⟨L, C, P, R, St⟩ := s
  obtain ⟨h1, h2⟩ := hs
  cases e with
  | domChange =>
    cases C with
    | false => exact ⟨h1, h2⟩
    | true =>
      refine ⟨fun hl => ?_, fun hl => h2 hl⟩
      exact absurd (h1 hl).2.1 (by simp)
  | deliverCallback =>
    cases P with
    | zero => exact ⟨h1, h2⟩
    | succ p =>
      have hst : schedStep (⟨L, C, p+1, R, St⟩ : SchedState) SchedEvent.deliverCallback =
          startRun ⟨L, C, p, R, St⟩ := by
        simp [schedStep]
      rw [hst]
      cases L with
      | true => exact absurd (h1 rfl).2.2 (by simp)
      | false =>
        have hr : R = 0 := h2 rfl
        subst hr
        exact ⟨fun _ => ⟨rfl, rfl, rfl⟩, fun hl => absurd hl (by simp [startRun])⟩
  | redoMessage =>
    cases L with
    | true => exact ⟨h1, h2⟩
    | false =>
      have hr : R = 0 := h2 rfl
      subst hr
      exact ⟨fun _ => ⟨rfl, rfl, rfl⟩, fun hl => absurd hl (by simp [schedStep, startRun])⟩
  | finishRun =>
    cases R with
    | zero => exact ⟨h1, h2⟩
    | succ r =>
      cases L with
      | false => exact absurd (h2 rfl) (by simp)
      | true =>
        have hr1 : r + 1 = 1 := (h1 rfl).1
        have hr : r = 0 := by omega
        subst hr
        have hst : schedStep (⟨true, C, P, 1, St⟩ : SchedState) SchedEvent.finishRun =
            ⟨false, true, P, 0, St⟩ := by
          simp [schedStep]
        rw [hst]
        exact ⟨fun hl => absurd hl (by simp), fun _ => rfl⟩

/-- The invariant holds in every state reachable from the initial state. -/
theorem schedInv_run (evs : List SchedEvent) : schedInv (schedRun evs) := by
  have general : ∀ (l : List SchedEvent) (s : SchedState), schedInv s →
      schedInv (l.foldl schedStep s) := by
    intro l
    induction l with
    | nil => intro s hs; exact hs
    | cons e l ih => intro s hs; exact ih (schedStep s e) (schedInv_step s hs e)
  exact general evs schedInit ⟨fun hl => absurd hl (by simp [schedInit]), fun _ => rfl⟩

/-- A DOM change while the observer is disconnected leaves the scheduler
state unchanged. -/
theorem schedStep_domChange_disconnected (s : SchedState) (hc : s.connected = false) :
    schedStep s .domChange = s := by
  simp [schedStep, hc]

/-- C9 amended: at most one classification pass executes at a time, and a run
request arriving while a run is `Running` is dropped, never queued; change
notifications arriving while a run is `Running` are discarded entirely
(observation is disconnected during the run), so they produce no follow-up
run — not one per burst, and not even a single coalesced one. -/
theorem scheduler_single_flight (evs pre mid : List SchedEvent)
    (hrun : (schedRun pre).running = 1)
    (hmid : ∀ e ∈ mid, e = SchedEvent.domChange) :
    (schedRun evs).running ≤ 1 ∧
    schedRun (pre ++ mid) = schedRun pre := by
  constructor
  · obtain ⟨i1, i2⟩ := schedInv_run evs
    cases hl : (schedRun evs).lock with
    | true => rw [(i1 hl).1]
    | false => rw [i2 hl]; omega
  · have hc : (schedRun pre).connected = false := by
      obtain ⟨i1, i2⟩ := schedInv_run pre
      cases hl : (schedRun pre).lock with
      | true => exact (i1 hl).2.1
      | false => rw [i2 hl] at hrun; omega
    unfold schedRun
    rw [List.foldl_append]
    have fixed : ∀ (l : List SchedEvent) (s : SchedState), s.connected = false →
        (∀ e ∈ l, e = SchedEvent.domChange) → l.foldl schedStep s = s := by
      intro l
      induction l with
      | nil => intro s _ _; rfl
      | cons e l ih =>
        intro s hsc hl
        have he := hl e (List.mem_cons_self e l)
        rw [List.foldl_cons, he, schedStep_domChange_disconnected s hsc]
        exact ih s hsc fun e2 he2 => hl e2 (List.mem_cons_of_mem e he2)
    exact fixed mid (schedRun pre) hc hmid

/-- Counterexample for C9: two change notifications arriving while a run is
`Running` produce NO follow-up run after the run finishes — the total number
of started runs stays `1` (the claim predicts a second, coalesced run), and
nothing remains queued, even when further callback-delivery opportunities
occur. -/
theorem scheduler_coalescing_counterexample :
    (schedRun [.redoMessage, .domChange, .domChange, .finishRun]).started = 1 ∧
    (schedRun [.redoMessage, .domChange, .domChange, .finishRun]).running = 0 ∧
    (schedRun [.redoMessage, .domChange, .domChange, .finishRun]).pendingCallbacks = 0 ∧
    (schedRun [.redoMessage, .domChange, .domChange, .finishRun,
               .deliverCallback, .deliverCallback]).started = 1 :=
  ⟨rfl, rfl, rfl, rfl⟩

/-- Witness for C9 amended: a run started by the redo message is `Running`;
two mid-run notifications leave the state untouched. -/
theorem scheduler_single_flight_witness :
    (schedRun [SchedEvent.redoMessage]).running = 1 ∧
    ((schedRun [SchedEvent.redoMessage, SchedEvent.domChange, SchedEvent.domChange]).running ≤ 1 ∧
     schedRun ([SchedEvent.redoMessage] ++ [SchedEvent.domChange, SchedEvent.domChange]) =
       schedRun [SchedEvent.redoMessage]) :=
  ⟨rfl,
   scheduler_single_flight
     [SchedEvent.redoMessage, SchedEvent.domChange, SchedEvent.domChange]
     [SchedEvent.redoMessage] [SchedEvent.domChange, SchedEvent.domChange]
     rfl (by decide)⟩

/- ========================================================================
   Part 16: claim C4 (identity assignment: idempotent and collision-free).
   ======================================================================== -/

theorem phids_mk (p : Option Nat) (tx : String) (cl : List String) (v : VisProps)
    (cs : List ENode) : phids (.mk p tx cl v cs) = optPhidList p ++ phidsL cs := rfl

theorem phidsL_cons (c : ENode) (cs : List ENode) :
    phidsL (c :: cs) = phids c ++ phidsL cs := rfl

mutual
/-- After stamping, every element of the subtree carries an ID. -/
theorem stampNode_stamps (t : ENode) (c : Nat) : allStamped (stampNode t c).1 = true := by
  cases t with
  | mk p tx cl v cs =>
    cases p with
    | some id => simp [stampNode, allStamped, stampList_stamps cs c]
    | none => simp [stampNode, allStamped, stampList_stamps cs (c + 1)]
/-- List version of `stampNode_stamps`. -/
theorem stampList_stamps (l : List ENode) (c : Nat) :
    allStampedL (stampList l c).1 = true := by
  cases l with
  | nil => rfl
  | cons n ns =>
    simp [stampList, allStampedL, stampNode_stamps n c,
      stampList_stamps ns (stampNode n c).2]
end

mutual
/-- Stamping a fully stamped subtree changes nothing. -/
theorem stampNode_fixed (t : ENode) (c : Nat) (h : allStamped t = true) :
    stampNode t c = (t, c) := by
  cases t with
  | mk p tx cl v cs =>
    cases p with
    | some id =>
      have hcs : allStampedL cs = true := by simpa [allStamped] using h
      simp [stampNode, stampList_fixed cs c hcs]
    | none =>
      exfalso
      simp [allStamped, Option.isSome] at h
/-- List version of `stampNode_fixed`. -/
theorem stampList_fixed (l : List ENode) (c : Nat) (h : allStampedL l = true) :
    stampList l c = (l, c) := by
  cases l with
  | nil => rfl
  | cons n ns =>
    simp only [allStampedL, Bool.and_eq_true] at h
    obtain ⟨hn, hns⟩ := h
    simp [stampList, stampNode_fixed n c hn, stampList_fixed ns c hns]
end

mutual
/-- Stamping invariant: when all existing IDs are below the counter and
pairwise distinct, the counter only grows, all resulting IDs stay below the
new counter, IDs below the old counter are the pre-existing ones, and the
resulting IDs are pairwise distinct. -/
theorem stampNode_inv (t : ENode) (c : Nat) (hlt : ∀ id ∈ phids t, id < c)
    (hnd : (phids t).Nodup) :
    c ≤ (stampNode t c).2 ∧
    (∀ id ∈ phids (stampNode t c).1, id < (stampNode t c).2) ∧
    (∀ id ∈ phids (stampNode t c).1, id < c → id ∈ phids t) ∧
    (phids (stampNode t c).1).Nodup := by
  cases t with
  | mk p tx cl v cs =>
    cases p with
    | some id =>
      simp only [phids_mk, optPhidList, List.singleton_append, List.nodup_cons] at hlt hnd
      have hid : id < c := hlt id (List.mem_cons_self id _)
      have hlt2 : ∀ x ∈ phidsL cs, x < c := fun x hx =>
        hlt x (List.mem_cons_of_mem id hx)
      obtain ⟨hidcs, hnd2⟩ := hnd
      obtain ⟨ih1, ih2, ih3, ih4⟩ := stampList_inv cs c hlt2 hnd2
      refine ⟨ih1, ?_, ?_, ?_⟩ <;>
        simp only [stampNode, phids_mk, optPhidList, List.singleton_append,
          List.mem_cons, List.nodup_cons]
      · rintro x (rfl | hx)
        · exact lt_of_lt_of_le hid ih1
        · exact ih2 x hx
      · rintro x (rfl | hx) _
        · exact Or.inl rfl
        · exact Or.inr (ih3 x hx (by assumption))
      · refine ⟨fun hmem => hidcs (ih3 id hmem hid), ih4⟩
    | none =>
      simp only [phids_mk, optPhidList, List.nil_append] at hlt hnd
      have hlt2 : ∀ x ∈ phidsL cs, x < c + 1 := fun x hx => Nat.lt_succ_of_lt (hlt x hx)
      obtain ⟨ih1, ih2, ih3, ih4⟩ := stampList_inv cs (c + 1) hlt2 hnd
      have hcc : c < (stampList cs (c + 1)).2 := lt_of_lt_of_le (Nat.lt_succ_self c) ih1
      refine ⟨le_of_lt hcc, ?_, ?_, ?_⟩ <;>
        simp only [stampNode, phids_mk, optPhidList, List.singleton_append,
          List.mem_cons, List.nodup_cons]
      · rintro x (rfl | hx)
        · exact hcc
        · exact ih2 x hx
      · rintro x (rfl | hx) hxc
        · exact absurd hxc (lt_irrefl _)
        · exact ih3 x hx (Nat.lt_succ_of_lt hxc)
      · refine ⟨fun hmem => ?_, ih4⟩
        have := hlt c (ih3 c hmem (Nat.lt_succ_self c))
        exact absurd this (lt_irrefl c)
/-- List version of `stampNode_inv`. -/
theorem stampList_inv (l : List ENode) (c : Nat) (hlt : ∀ id ∈ phidsL l, id < c)
    (hnd : (phidsL l).Nodup) :
    c ≤ (stampList l c).2 ∧
    (∀ id ∈ phidsL (stampList l c).1, id < (stampList l c).2) ∧
    (∀ id ∈ phidsL (stampList l c).1, id < c → id ∈ phidsL l) ∧
    (phidsL (stampList l c).1).Nodup := by
  cases l with
  | nil => exact ⟨le_refl c, by simp [stampList, phidsL], by simp [stampList, phidsL],
      by simp [stampList, phidsL]⟩
  | cons n ns =>
    simp only [phidsL_cons, List.nodup_append] at hlt hnd
    have hlt1 : ∀ x ∈ phids n, x < c := fun x hx => hlt x (List.mem_append_left _ hx)
    have hlt2 : ∀ x ∈ phidsL ns, x < c := fun x hx => hlt x (List.mem_append_right _ hx)
    obtain ⟨hnd1, hnd2, hdisj⟩ := hnd
    obtain ⟨a1, a2, a3, a4⟩ := stampNode_inv n c hlt1 hnd1
    have hlt2b : ∀ x ∈ phidsL ns, x < (stampNode n c).2 := fun x hx =>
      lt_of_lt_of_le (hlt2 x hx) a1
    obtain ⟨b1, b2, b3, b4⟩ := stampList_inv ns (stampNode n c).2 hlt2b hnd2
    refine ⟨le_trans a1 b1, ?_, ?_, ?_⟩ <;>
      simp only [stampList, phidsL_cons, List.mem_append, List.nodup_append]
    · rintro x (hx | hx)
      · exact lt_of_lt_of_le (a2 x hx) b1
      · exact b2 x hx
    · rintro x (hx | hx) hxc
      · exact Or.inl (a3 x hx hxc)
      · exact Or.inr (b3 x hx (lt_of_lt_of_le hxc a1))
    · refine ⟨a4, b4, ?_⟩
      intro x hx1 hx2
      have hxc1 : x < (stampNode n c).2 := a2 x hx1
      have hxns : x ∈ phidsL ns := b3 x hx2 hxc1
      have hxc : x < c := hlt2 x hxns
      exact hdisj (a3 x hx1 hxc) hxns
end

/-- C4: stamping identities is idempotent — a second run on the unmodified,
already-stamped tree assigns no new identifier and changes nothing — and,
when the pre-existing IDs are below the counter and pairwise distinct (the
invariant the process-wide, never-reset counter maintains), the counter only
grows and the stamped tree's IDs are pairwise distinct and below the new
counter, so no two elements ever receive the same identity. -/
theorem addPhid_idempotent_and_unique (t : ENode) (c : Nat)
    (hlt : ∀ id ∈ phids t, id < c) (hnd : (phids t).Nodup) :
    addPhidForEveryElement (addPhidForEveryElement t c).1 (addPhidForEveryElement t c).2 =
      addPhidForEveryElement t c ∧
    c ≤ (addPhidForEveryElement t c).2 ∧
    (phids (addPhidForEveryElement t c).1).Nodup ∧
    (∀ id ∈ phids (addPhidForEveryElement t c).1, id < (addPhidForEveryElement t c).2) := by
  cases t with
  | mk p tx cl v cs =>
    simp only [phids_mk] at hlt hnd
    have hlt2 : ∀ x ∈ phidsL cs, x < c := fun x hx =>
      hlt x (List.mem_append_right _ hx)
    have hnd2 : (phidsL cs).Nodup := (List.nodup_append.mp hnd).2.1
    obtain ⟨ih1, ih2, ih3, ih4⟩ := stampList_inv cs c hlt2 hnd2
    refine ⟨?_, ih1, ?_, ?_⟩
    · simp only [addPhidForEveryElement, ENode.children, ENode.withChildren]
      rw [stampList_fixed (stampList cs c).1 (stampList cs c).2 (stampList_stamps cs c)]
    · simp only [addPhidForEveryElement, ENode.children, ENode.withChildren, phids_mk,
        List.nodup_append]
      have hndp : (optPhidList p).Nodup := (List.nodup_append.mp hnd).1
      refine ⟨hndp, ih4, ?_⟩
      intro x hx1 hx2
      cases p with
      | none => simp [optPhidList] at hx1
      | some id =>
        simp only [optPhidList, List.mem_singleton] at hx1
        subst hx1
        have hxc : x < c := hlt x (by simp [optPhidList])
        have hmem : x ∈ phidsL cs := ih3 x hx2 hxc
        exact (List.disjoint_of_nodup_append hnd) (by simp [optPhidList]) hmem
    · simp only [addPhidForEveryElement, ENode.children, ENode.withChildren, phids_mk,
        List.mem_append]
      rintro x (hx | hx)
      · exact lt_of_lt_of_le (hlt x (List.mem_append_left _ hx)) ih1
      · exact ih2 x hx

/-- Witness for C4 at a concrete unstamped tree. -/
theorem addPhid_idempotent_and_unique_witness :
    (∀ id ∈ phids (ENode.mk none "" [] {} [ENode.mk none "a" [] {} [],
        ENode.mk none "b" [] {} []]), id < 0) ∧
    (phids (ENode.mk none "" [] {} [ENode.mk none "a" [] {} [],
        ENode.mk none "b" [] {} []])).Nodup ∧
    (phids (addPhidForEveryElement (ENode.mk none "" [] {} [ENode.mk none "a" [] {} [],
        ENode.mk none "b" [] {} []]) 0).1).Nodup := by
  refine ⟨by decide, by decide, ?_⟩
  exact (addPhid_idempotent_and_unique
    (ENode.mk none "" [] {} [ENode.mk none "a" [] {} [], ENode.mk none "b" [] {} []]) 0
    (by decide) (by decide)).2.2.1

/- ========================================================================
   Part 17: claim C8 (result aggregation partitions tagged elements).
   ======================================================================== -/

/-- The elements satisfying a predicate and those failing it together count
the whole list. -/
theorem length_filter_add_length_filter_not {α : Type} (p : α → Bool) (l : List α) :
    (l.filter p).length + (l.filter fun x => !p x).length = l.length := by
  induction l with
  | nil => rfl
  | cons a l ih =>
    cases hp : p a <;> simp [List.filter_cons, hp] <;> omega

/-- C8: the run report partitions tagged elements completely.  The report has
one entry per pattern (in registry order); the global `count` is the sum over
patterns of visible plus hidden elements and `countVisible` the sum of the
visible ones; per pattern, the visible and hidden lists together count
exactly the elements carrying the pattern's class; and — provided the live
tree's `data-phid` values are pairwise distinct — every element carrying a
pattern's class has its identifier in exactly one of that pattern's two
lists. -/
theorem getPatternsResults_partition (cfg : PatternConfig) (live : ENode)
    (hnd : ((nodesOf live).map ENode.phid).Nodup) :
    (getPatternsResults cfg live).patterns = cfg.patterns.map (patternResultFor live) ∧
    (getPatternsResults cfg live).count =
      ((getPatternsResults cfg live).patterns.map
        (fun pr => pr.elementsVisible.length + pr.elementsHidden.length)).sum ∧
    (getPatternsResults cfg live).countVisible =
      ((getPatternsResults cfg live).patterns.map
        (fun pr => pr.elementsVisible.length)).sum ∧
    (∀ p ∈ cfg.patterns,
      (patternResultFor live p).elementsVisible.length +
        (patternResultFor live p).elementsHidden.length =
        (getElementsByClass (extensionClassBase ++ p.className) live).length) ∧
    (∀ p ∈ cfg.patterns, ∀ e ∈ nodesOf live,
      (extensionClassBase ++ p.className) ∈ e.classes →
      ((e.phid ∈ (patternResultFor live p).elementsVisible ∧
        e.phid ∉ (patternResultFor live p).elementsHidden) ∨
       (e.phid ∈ (patternResultFor live p).elementsHidden ∧
        e.phid ∉ (patternResultFor live p).elementsVisible))) := by
  refine ⟨rfl, rfl, rfl, ?_, ?_⟩
  · intro p _
    simp only [patternResultFor, List.length_map]
    exact length_filter_add_length_filter_not elementIsVisible _
  · intro p _ e he hcls
    have hmeme : e ∈ getElementsByClass (extensionClassBase ++ p.className) live := by
      simp only [getElementsByClass, List.mem_filter]
      exact ⟨he, List.elem_iff.mpr hcls⟩
    have hinj : ∀ e2 ∈ nodesOf live, e2.phid = e.phid → e2 = e := fun e2 he2 hp2 =>
      List.inj_on_of_nodup_map hnd he2 he hp2
    cases hv : elementIsVisible e with
    | true =>
      left
      constructor
      · exact List.mem_map_of_mem _ (List.mem_filter.mpr ⟨hmeme, hv⟩)
      · intro hmem
        obtain ⟨e2, he2, hphid⟩ := List.mem_map.mp hmem
        obtain ⟨he2e, he2v⟩ := List.mem_filter.mp he2
        have he2n : e2 ∈ nodesOf live := (List.mem_filter.mp he2e).1
        have heq := hinj e2 he2n hphid
        subst heq
        rw [hv] at he2v
        simp at he2v
    | false =>
      right
      constructor
      · refine List.mem_map_of_mem _ (List.mem_filter.mpr ⟨hmeme, ?_⟩)
        simp [hv]
      · intro hmem
        obtain ⟨e2, he2, hphid⟩ := List.mem_map.mp hmem
        obtain ⟨he2e, he2v⟩ := List.mem_filter.mp he2
        have he2n : e2 ∈ nodesOf live := (List.mem_filter.mp he2e).1
        have heq := hinj e2 he2n hphid
        subst heq
        rw [hv] at he2v
        simp at he2v

/-- Witness for C8 at a concrete live tree with distinct IDs. -/
theorem getPatternsResults_partition_witness :
    ((nodesOf taggedLiveExample).map ENode.phid).Nodup ∧
    ((getPatternsResults patternConfig taggedLiveExample).count =
      ((getPatternsResults patternConfig taggedLiveExample).patterns.map
        (fun pr => pr.elementsVisible.length + pr.elementsHidden.length)).sum) := by
  refine ⟨by decide, ?_⟩
  exact (getPatternsResults_partition patternConfig taggedLiveExample (by decide)).2.1

/- ========================================================================
   Part 18: claim C1 (post-order pruning).
   ======================================================================== -/

theorem tagsOf_append (l1 l2 : List LEvent) :
    tagsOf (l1 ++ l2) = tagsOf l1 ++ tagsOf l2 :=
  List.filterMap_append l1 l2 _

theorem mem_tagsAcc (l : List LEvent) (acc : List Nat) (q : Nat) :
    q ∈ tagsAcc l acc ↔ q ∈ tagsOf l ∨ q ∈ acc := by
  induction l generalizing acc with
  | nil => simp [tagsAcc, tagsOf]
  | cons e l ih =>
    cases e with
    | tag id =>
      simp only [tagsAcc, ih, tagsOf, List.filterMap_cons, List.mem_cons]
      tauto
    | eval i seen =>
      simp only [tagsAcc, ih, tagsOf, List.filterMap_cons]

theorem logOkB_append (acc : List Nat) (l1 l2 : List LEvent) :
    logOkB acc (l1 ++ l2) = (logOkB acc l1 && logOkB (tagsAcc l1 acc) l2) := by
  induction l1 generalizing acc with
  | nil => simp [logOkB, tagsAcc]
  | cons e l1 ih =>
    cases e with
    | tag id => simp [logOkB, tagsAcc, ih, List.append_eq]
    | eval i seen => simp [logOkB, tagsAcc, ih, List.append_eq, Bool.and_assoc]

theorem contains_eq_false_of_not_mem {q : Nat} {l : List Nat} (h : q ∉ l) :
    l.contains q = false := by
  cases hc : l.contains q with
  | false => rfl
  | true => exact absurd (List.elem_iff.mp hc) h

/-- An evaluation event is admissible for an accumulator disjoint from the
recorded subtree IDs. -/
theorem logOkB_eval (acc : List Nat) (i : Option Nat) (seen : List Nat)
    (h : ∀ q ∈ acc, q ∉ seen) :
    logOkB acc [LEvent.eval i seen] = true := by
  simp only [logOkB, Bool.and_true, List.all_eq_true]
  intro q hq
  rw [contains_eq_false_of_not_mem (h q hq)]
  rfl

theorem logOkB_tag (acc : List Nat) (id : Nat) :
    logOkB acc [LEvent.tag id] = true := rfl

/-- Log characterisation of `processNode`: the evaluation of the node is
recorded; on a successful live tag (only possible when the node carries an
ID) the tag is recorded and the node is removed; otherwise the node either
survives (no match) or is removed untagged. -/
theorem processNode_log (cfg : PatternConfig) (nodeP : ENode) (st1 : CState)
    (res : Option ENode) (st2 : CState)
    (hok : processNode cfg nodeP st1 = .ok (res, st2)) :
    (st2.log = st1.log ++ [.eval nodeP.phid (phids nodeP)] ∧ res = some nodeP) ∨
    (∃ id, nodeP.phid = some id ∧
      st2.log = (st1.log ++ [.eval nodeP.phid (phids nodeP)]) ++ [.tag id] ∧ res = none) ∨
    (st2.log = st1.log ++ [.eval nodeP.phid (phids nodeP)] ∧ res = none) := by
  cases hp : nodeP.phid with
  | none =>
    simp only [processNode, hp] at hok
    split at hok
    · exact Except.noConfusion hok
    · injection hok with h
      injection h with h1 h2
      subst h1
      subst h2
      exact Or.inl ⟨rfl, rfl⟩
    · injection hok with h
      injection h with h1 h2
      subst h1
      subst h2
      exact Or.inr (Or.inr ⟨rfl, rfl⟩)
  | some id =>
    simp only [processNode, hp] at hok
    split at hok
    · exact Except.noConfusion hok
    · injection hok with h
      injection h with h1 h2
      subst h1
      subst h2
      exact Or.inl ⟨rfl, rfl⟩
    · rename_i className heq
      cases hr : (tagPhid id (tagClassesFor className) st1.live).2 with
      | true =>
        simp only [hr, if_true] at hok
        cases ho : getElementByPhid st1.older id with
        | some old =>
          simp only [ho] at hok
          injection hok with h
          injection h with h1 h2
          subst h1
          subst h2
          exact Or.inr (Or.inl ⟨id, rfl, rfl, rfl⟩)
        | none =>
          simp only [ho] at hok
          injection hok with h
          injection h with h1 h2
          subst h1
          subst h2
          exact Or.inr (Or.inl ⟨id, rfl, rfl, rfl⟩)
      | false =>
        simp only [hr, Bool.false_eq_true, if_false] at hok
        cases ho : getElementByPhid st1.older id with
        | some old =>
          simp only [ho] at hok
          injection hok with h
          injection h with h1 h2
          subst h1
          subst h2
          exact Or.inr (Or.inr ⟨rfl, rfl⟩)
        | none =>
          simp only [ho] at hok
          injection hok with h
          injection h with h1 h2
          subst h1
          subst h2
          exact Or.inr (Or.inr ⟨rfl, rfl⟩)

theorem tagsOf_eval (i : Option Nat) (s : List Nat) : tagsOf [LEvent.eval i s] = [] := rfl

theorem tagsOf_tag (id : Nat) : tagsOf [LEvent.tag id] = [id] := rfl

theorem phid_withChildren (node : ENode) (cs : List ENode) :
    (node.withChildren cs).phid = node.phid := by
  cases node
  rfl

theorem phids_withChildren (node : ENode) (cs : List ENode) :
    phids (node.withChildren cs) = optPhidList node.phid ++ phidsL cs := by
  cases node
  rfl

theorem phids_decomp (node : ENode) :
    phids node = optPhidList node.phid ++ phidsL node.children := by
  cases node
  rfl

mutual
/-- Pruning invariant of `findPatternDeep` on one node: the pass appends an
audit suffix whose tagged IDs come from the node's subtree; a surviving node
keeps a sub-collection of its IDs; every ID tagged so far is detached from a
surviving node; and no evaluation in the new suffix sees an ID tagged before
it (relative to any accumulator disjoint from the subtree). -/
theorem findPatternDeep_pruning (fuel : Nat) (cfg : PatternConfig) (node : ENode)
    (st : CState) (res : Option ENode) (st2 : CState)
    (hok : findPatternDeep fuel cfg node st = .ok (res, st2))
    (hnd : (phids node).Nodup)
    (htags : ∀ q ∈ tagsOf st.log, q ∉ phids node) :
    ∃ Δ, st2.log = st.log ++ Δ ∧
      (∀ q ∈ tagsOf Δ, q ∈ phids node) ∧
      (∀ t, res = some t → (phids t).Sublist (phids node)) ∧
      (∀ t, res = some t → ∀ q ∈ tagsOf st2.log, q ∉ phids t) ∧
      (∀ acc : List Nat, (∀ q ∈ acc, q ∉ phids node) → logOkB acc Δ = true) := by
  cases fuel with
  | zero => exact Except.noConfusion hok
  | succ fuel =>
    simp only [findPatternDeep] at hok
    rcases hc : findPatternDeepChildren fuel cfg node.children st with e | ⟨cs', st1⟩
    · rw [hc] at hok
      exact Except.noConfusion hok
    · rw [hc] at hok
      replace hok : processNode cfg (node.withChildren cs') st1 = .ok (res, st2) := hok
      have hnddec := hnd
      rw [phids_decomp] at hnddec
      obtain ⟨hndopt, hndc, hdisj⟩ := List.nodup_append.mp hnddec
      have htagsc : ∀ q ∈ tagsOf st.log, q ∉ phidsL node.children := fun q hq hm =>
        htags q hq (by rw [phids_decomp]; exact List.mem_append_right _ hm)
      obtain ⟨Δc, hlog1, htag1, hsubc, hnotc, hokc⟩ :=
        findPatternDeepChildren_pruning fuel cfg node.children st cs' st1 hc hndc htagsc
      have hsubP : (phids (node.withChildren cs')).Sublist (phids node) := by
        rw [phids_withChildren, phids_decomp]
        exact hsubc.append_left _
      have htagsP : ∀ q ∈ tagsOf st1.log, q ∉ phids (node.withChildren cs') := by
        intro q hq hmem
        rw [phids_withChildren] at hmem
        rcases List.mem_append.mp hmem with hm | hm
        · have hq2 : q ∈ tagsOf st.log ∨ q ∈ tagsOf Δc := by
            rw [hlog1, tagsOf_append] at hq
            exact List.mem_append.mp hq
          rcases hq2 with hq2 | hq2
          · exact htags q hq2 (by rw [phids_decomp]; exact List.mem_append_left _ hm)
          · exact hdisj hm (htag1 q hq2)
        · exact hnotc q hq hm
      have haccP : ∀ (acc : List Nat), (∀ q ∈ acc, q ∉ phids node) →
          ∀ q ∈ tagsAcc Δc acc, q ∉ phids (node.withChildren cs') := by
        intro acc hacc q hq
        rcases (mem_tagsAcc Δc acc q).mp hq with hq | hq
        · have hq1 : q ∈ tagsOf st1.log := by
            rw [hlog1, tagsOf_append]
            exact List.mem_append_right _ hq
          exact htagsP q hq1
        · exact fun hm => hacc q hq (hsubP.subset hm)
      have haccC : ∀ (acc : List Nat), (∀ q ∈ acc, q ∉ phids node) →
          ∀ q ∈ acc, q ∉ phidsL node.children := fun acc hacc q hq hm =>
        hacc q hq (by rw [phids_decomp]; exact List.mem_append_right _ hm)
      rcases processNode_log cfg (node.withChildren cs') st1 res st2 hok with
        ⟨hlogP, hres⟩ | ⟨id, hpid, hlogP, hres⟩ | ⟨hlogP, hres⟩
      · -- no match: node survives
        refine ⟨Δc ++ [.eval (node.withChildren cs').phid (phids (node.withChildren cs'))],
          ?_, ?_, ?_, ?_, ?_⟩
        · rw [hlogP, hlog1, List.append_assoc]
        · intro q hq
          rw [tagsOf_append, tagsOf_eval, List.append_nil] at hq
          rw [phids_decomp]
          exact List.mem_append_right _ (htag1 q hq)
        · intro t ht
          rw [hres] at ht
          injection ht with ht
          rw [← ht]
          exact hsubP
        · intro t ht q hq
          rw [hres] at ht
          injection ht with ht
          rw [← ht]
          have hq1 : q ∈ tagsOf st1.log := by
            rw [hlogP, tagsOf_append, tagsOf_eval, List.append_nil] at hq
            exact hq
          exact htagsP q hq1
        · intro acc hacc
          rw [logOkB_append, Bool.and_eq_true]
          exact ⟨hokc acc (haccC acc hacc), logOkB_eval _ _ _ (haccP acc hacc)⟩
      · -- match with live tag: node removed, tag recorded
        refine ⟨(Δc ++ [.eval (node.withChildren cs').phid (phids (node.withChildren cs'))])
          ++ [.tag id], ?_, ?_, ?_, ?_, ?_⟩
        · rw [hlogP, hlog1]
          simp [List.append_assoc]
        · intro q hq
          rw [tagsOf_append, tagsOf_append, tagsOf_eval, tagsOf_tag, List.append_nil] at hq
          rcases List.mem_append.mp hq with hq | hq
          · rw [phids_decomp]
            exact List.mem_append_right _ (htag1 q hq)
          · rw [List.mem_singleton] at hq
            subst hq
            rw [phids_decomp]
            refine List.mem_append_left _ ?_
            rw [← phid_withChildren node cs', hpid]
            exact List.mem_singleton.mpr rfl
        · intro t ht
          rw [hres] at ht
          exact Option.noConfusion ht
        · intro t ht
          rw [hres] at ht
          exact Option.noConfusion ht
        · intro acc hacc
          rw [logOkB_append, logOkB_append]
          simp only [Bool.and_eq_true]
          exact ⟨⟨hokc acc (haccC acc hacc), logOkB_eval _ _ _ (haccP acc hacc)⟩,
            logOkB_tag _ _⟩
      · -- match without live element: node removed untagged
        refine ⟨Δc ++ [.eval (node.withChildren cs').phid (phids (node.withChildren cs'))],
          ?_, ?_, ?_, ?_, ?_⟩
        · rw [hlogP, hlog1, List.append_assoc]
        · intro q hq
          rw [tagsOf_append, tagsOf_eval, List.append_nil] at hq
          rw [phids_decomp]
          exact List.mem_append_right _ (htag1 q hq)
        · intro t ht
          rw [hres] at ht
          exact Option.noConfusion ht
        · intro t ht
          rw [hres] at ht
          exact Option.noConfusion ht
        · intro acc hacc
          rw [logOkB_append, Bool.and_eq_true]
          exact ⟨hokc acc (haccC acc hacc), logOkB_eval _ _ _ (haccP acc hacc)⟩

/-- Pruning invariant of `findPatternDeepChildren` over a child list. -/
theorem findPatternDeepChildren_pruning (fuel : Nat) (cfg : PatternConfig)
    (cs : List ENode) (st : CState) (out : List ENode) (st2 : CState)
    (hok : findPatternDeepChildren fuel cfg cs st = .ok (out, st2))
    (hnd : (phidsL cs).Nodup)
    (htags : ∀ q ∈ tagsOf st.log, q ∉ phidsL cs) :
    ∃ Δ, st2.log = st.log ++ Δ ∧
      (∀ q ∈ tagsOf Δ, q ∈ phidsL cs) ∧
      (phidsL out).Sublist (phidsL cs) ∧
      (∀ q ∈ tagsOf st2.log, q ∉ phidsL out) ∧
      (∀ acc : List Nat, (∀ q ∈ acc, q ∉ phidsL cs) → logOkB acc Δ = true) := by
  cases fuel with
  | zero => exact Except.noConfusion hok
  | succ fuel =>
    cases cs with
    | nil =>
      simp only [findPatternDeepChildren] at hok
      injection hok with h
      injection h with h1 h2
      subst h1
      subst h2
      refine ⟨[], by simp, ?_, List.Sublist.refl _, ?_, fun acc _ => rfl⟩
      · intro q hq
        exact absurd hq (by simp [tagsOf])
      · intro q hq hm
        simp [phidsL] at hm
    | cons c rest =>
      rw [phidsL_cons] at hnd htags
      obtain ⟨hnd1, hndrest, hdisj1⟩ := List.nodup_append.mp hnd
      simp only [findPatternDeepChildren] at hok
      rcases hd : findPatternDeep fuel cfg c st with e | ⟨resc, st1⟩
      · rw [hd] at hok
        exact Except.noConfusion hok
      · rw [hd] at hok
        obtain ⟨Δ1, hlog1, htag1, hsub1, hnot1, hok1⟩ :=
          findPatternDeep_pruning fuel cfg c st resc st1 hd hnd1
            (fun q hq hm => htags q hq (List.mem_append_left _ hm))
        cases resc with
        | some cP =>
          replace hok : (match findPatternDeepChildren fuel cfg rest st1 with
              | Except.error e => Except.error e
              | Except.ok (out2, st3) => Except.ok (cP :: out2, st3)) =
              Except.ok (out, st2) := hok
          rcases he : findPatternDeepChildren fuel cfg rest st1 with e | ⟨out2, st3⟩
          · rw [he] at hok
            exact Except.noConfusion hok
          · rw [he] at hok
            injection hok with h
            injection h with h1 h2
            subst h1
            subst h2
            have hsubcP : (phids cP).Sublist (phids c) := hsub1 cP rfl
            have htags1 : ∀ q ∈ tagsOf st1.log, q ∉ phidsL rest := by
              intro q hq hm
              have hq2 : q ∈ tagsOf st.log ∨ q ∈ tagsOf Δ1 := by
                rw [hlog1, tagsOf_append] at hq
                exact List.mem_append.mp hq
              rcases hq2 with hq2 | hq2
              · exact htags q hq2 (List.mem_append_right _ hm)
              · exact hdisj1 (htag1 q hq2) hm
            obtain ⟨Δ2, hlog2, htag2, hsub2, hnot2, hok2⟩ :=
              findPatternDeepChildren_pruning fuel cfg rest st1 out2 st3 he hndrest htags1
            refine ⟨Δ1 ++ Δ2, ?_, ?_, ?_, ?_, ?_⟩
            · rw [hlog2, hlog1, List.append_assoc]
            · intro q hq
              rw [tagsOf_append] at hq
              rw [phidsL_cons]
              rcases List.mem_append.mp hq with hq | hq
              · exact List.mem_append_left _ (htag1 q hq)
              · exact List.mem_append_right _ (htag2 q hq)
            · rw [phidsL_cons, phidsL_cons]
              exact hsubcP.append hsub2
            · intro q hq hm
              rw [phidsL_cons] at hm
              rcases List.mem_append.mp hm with hm | hm
              · have hq2 : q ∈ tagsOf st1.log ∨ q ∈ tagsOf Δ2 := by
                  rw [hlog2, tagsOf_append] at hq
                  exact List.mem_append.mp hq
                rcases hq2 with hq2 | hq2
                · exact hnot1 cP rfl q hq2 hm
                · exact hdisj1 (hsubcP.subset hm) (htag2 q hq2)
              · exact hnot2 q hq hm
            · intro acc hacc
              rw [logOkB_append, Bool.and_eq_true]
              refine ⟨?_, ?_⟩
              · exact hok1 acc (fun q hq hm => hacc q hq (List.mem_append_left _ hm))
              · apply hok2
                intro q hq hm
                rcases (mem_tagsAcc Δ1 acc q).mp hq with hq | hq
                · exact hdisj1 (htag1 q hq) hm
                · exact hacc q hq (List.mem_append_right _ hm)
        | none =>
          cases rest with
          | nil =>
            injection hok with h
            injection h with h1 h2
            subst h1
            subst h2
            refine ⟨Δ1, hlog1, ?_, List.nil_sublist _, ?_, ?_⟩
            · intro q hq
              rw [phidsL_cons]
              exact List.mem_append_left _ (htag1 q hq)
            · intro q hq hm
              simp [phidsL] at hm
            · intro acc hacc
              exact hok1 acc (fun q hq hm => hacc q hq (List.mem_append_left _ hm))
          | cons skipped rest2 =>
            replace hok : (match findPatternDeepChildren fuel cfg rest2 st1 with
                | Except.error e => Except.error e
                | Except.ok (out2, st3) => Except.ok (skipped :: out2, st3)) =
                Except.ok (out, st2) := hok
            rcases he : findPatternDeepChildren fuel cfg rest2 st1 with e | ⟨out2, st3⟩
            · rw [he] at hok
              exact Except.noConfusion hok
            · rw [he] at hok
              injection hok with h
              injection h with h1 h2
              subst h1
              subst h2
              have hndsk := hndrest
              rw [phidsL_cons] at hndsk
              obtain ⟨hndskip, hndrest2, hdisj2⟩ := List.nodup_append.mp hndsk
              have htags1 : ∀ q ∈ tagsOf st1.log, q ∉ phidsL rest2 := by
                intro q hq hm
                have hmr : q ∈ phidsL (skipped :: rest2) := by
                  rw [phidsL_cons]
                  exact List.mem_append_right _ hm
                have hq2 : q ∈ tagsOf st.log ∨ q ∈ tagsOf Δ1 := by
                  rw [hlog1, tagsOf_append] at hq
                  exact List.mem_append.mp hq
                rcases hq2 with hq2 | hq2
                · exact htags q hq2 (List.mem_append_right _ hmr)
                · exact hdisj1 (htag1 q hq2) hmr
              obtain ⟨Δ2, hlog2, htag2, hsub2, hnot2, hok2⟩ :=
                findPatternDeepChildren_pruning fuel cfg rest2 st1 out2 st3 he hndrest2 htags1
              refine ⟨Δ1 ++ Δ2, ?_, ?_, ?_, ?_, ?_⟩
              · rw [hlog2, hlog1, List.append_assoc]
              · intro q hq
                rw [tagsOf_append] at hq
                rw [phidsL_cons]
                rcases List.mem_append.mp hq with hq | hq
                · exact List.mem_append_left _ (htag1 q hq)
                · refine List.mem_append_right _ ?_
                  rw [phidsL_cons]
                  exact List.mem_append_right _ (htag2 q hq)
              · rw [phidsL_cons, phidsL_cons, phidsL_cons]
                have hstep : (phids skipped ++ phidsL out2).Sublist
                    (phids skipped ++ phidsL rest2) := hsub2.append_left _
                exact hstep.trans (List.sublist_append_right _ _)
              · intro q hq hm
                rw [phidsL_cons] at hm
                rcases List.mem_append.mp hm with hm | hm
                · -- q would be in the skipped sibling
                  have hq2 : q ∈ tagsOf st.log ∨ q ∈ tagsOf Δ1 ∨ q ∈ tagsOf Δ2 := by
                    rw [hlog2, hlog1, tagsOf_append, tagsOf_append] at hq
                    rcases List.mem_append.mp hq with hq | hq
                    · rcases List.mem_append.mp hq with hq | hq
                      · exact Or.inl hq
                      · exact Or.inr (Or.inl hq)
                    · exact Or.inr (Or.inr hq)
                  have hmr : q ∈ phidsL (skipped :: rest2) := by
                    rw [phidsL_cons]
                    exact List.mem_append_left _ hm
                  rcases hq2 with hq2 | hq2 | hq2
                  · exact htags q hq2 (List.mem_append_right _ hmr)
                  · exact hdisj1 (htag1 q hq2) hmr
                  · exact hdisj2 hm (htag2 q hq2)
                · exact hnot2 q hq hm
              · intro acc hacc
                rw [logOkB_append, Bool.and_eq_true]
                refine ⟨?_, ?_⟩
                · exact hok1 acc (fun q hq hm => hacc q hq (List.mem_append_left _ hm))
                · apply hok2
                  intro q hq hm
                  have hmr : q ∈ phidsL (skipped :: rest2) := by
                    rw [phidsL_cons]
                    exact List.mem_append_right _ hm
                  rcases (mem_tagsAcc Δ1 acc q).mp hq with hq | hq
                  · exact hdisj1 (htag1 q hq) hmr
                  · exact hacc q hq (List.mem_append_right _ hmr)
end

/-- C1 amended: post-order pruning does not prevent an ancestor and a
descendant from BOTH being tagged (see `pruning_counterexample`); what it
guarantees is that every element tagged during the pass is detached from the
newer snapshot at the moment it is tagged, so no later evaluation — in
particular no ancestor's — sees the content of an already-tagged element
(`logOkB`), and the snapshot tree surviving the pass contains no tagged ID. -/
theorem classify_pruning (cfg : PatternConfig) (newer older live : ENode)
    (hnd : (phids newer).Nodup) (res : Option ENode) (st2 : CState)
    (hok : classify cfg newer older live = .ok (res, st2)) :
    logOkB [] st2.log = true ∧
    (∀ t, res = some t → ∀ q ∈ tagsOf st2.log, q ∉ phids t) := by
  unfold classify at hok
  obtain ⟨Δ, hlog, htag, hsub, hnot, hokk⟩ :=
    findPatternDeep_pruning (2 * esize newer + 2) cfg newer
      { older := older, live := live, log := [] } res st2 hok hnd
      (fun q hq => absurd hq (List.not_mem_nil q))
  refine ⟨?_, hnot⟩
  rw [hlog]
  exact hokk [] (fun q hq => absurd hq (List.not_mem_nil q))

set_option maxRecDepth 100000 in
/-- Counterexample for C1: running one classification pass of the configured
registry over the snapshot pair (`exRoot`, `exRoot`) tags BOTH the element
with ID 1 and its strict descendant with ID 2 (each of their texts matches
the scarcity rule on its own), so two elements in ancestor–descendant
relation carry pattern tags after one pass, contradicting the claim. -/
theorem pruning_counterexample :
    hasPatternClass (classifyLiveResult patternConfig exRoot exRoot exRoot) 1 = true ∧
    hasPatternClass (classifyLiveResult patternConfig exRoot exRoot exRoot) 2 = true ∧
    strictAncestorOf (classifyLiveResult patternConfig exRoot exRoot exRoot) 1 2 = true := by
  refine ⟨?_, ?_, ?_⟩ <;> decide

set_option maxRecDepth 100000 in
/-- Witness for C1 amended at the concrete scarcity tree. -/
theorem classify_pruning_witness :
    (phids exRoot).Nodup ∧
    logOkB [] (classifyLog patternConfig exRoot exRoot exRoot) = true := by
  refine ⟨by decide, ?_⟩
  unfold classifyLog
  split
  · rename_i res st heq
    exact (classify_pruning patternConfig exRoot exRoot exRoot (by decide) res st heq).1
  · rfl
